import Mathlib

/-!
Verification development for the Clara customer-support chat backend.

Strings are modelled as `List Char`.  Python string operations (`strip`,
`lower`, substring `in`, `str.replace`, the regular-expression substitutions
used by `app/utils.py` and `app/llm_engine.py`) are embedded as executable
Lean functions on `List Char`.  The model is faithful on the ASCII fragment:
`lower` uses `Char.toLower` (ASCII case folding) and word characters
(`\w` / `\b`) use the ASCII class; the whitespace and line-break classes are
Python's full `str.isspace` / `str.splitlines` sets.

External collaborators (the Gemini completion service, the database/ORM
layer, `difflib`, the `csv` serializer) are modelled as parameters or as
structured values, following the spec's component boundaries: the outcome of
a completion call is an `Except Unit (List Char)` value (`.error` = the call
raised), the fuzzy FAQ matcher is an oracle parameter of the `/chat` model,
and a CSV row is a record of the seven field values handed to the writer.
-/

set_option maxHeartbeats 1000000
set_option maxRecDepth 4000

/-- Shorthand: the character list of a string literal. -/
def str (s : String) : List Char := s.data

/-- The apostrophe character (used in several fixed message strings). -/
def apo : Char := Char.ofNat 39

/-- Python whitespace (`str.isspace`, also matched by `\s` and stripped by
`str.strip`): `\t\n\v\f\r`, space, `\x1c`-`\x1f`, NEL, NBSP and the Unicode
space separators. -/
def isWsChar (c : Char) : Bool :=
  (decide ('\x09' ≤ c) && decide (c ≤ '\x0d')) || c == ' ' ||
  (decide ('\x1c' ≤ c) && decide (c ≤ '\x1f')) || c == '\x85' || c == '\xa0' ||
  c == '\u1680' || (decide ('\u2000' ≤ c) && decide (c ≤ '\u200a')) ||
  c == '\u2028' || c == '\u2029' || c == '\u202f' || c == '\u205f' || c == '\u3000'

/-- Sentence-terminal punctuation used by the resolver's sentence splitter. -/
def isTermChar (c : Char) : Bool :=
  c == '.' || c == '!' || c == '?'

/-- ASCII word character, as matched by `\w` / bounding `\b` for ASCII text. -/
def isWordChar (c : Char) : Bool :=
  (decide ('a' ≤ c) && decide (c ≤ 'z')) || (decide ('A' ≤ c) && decide (c ≤ 'Z')) ||
  (decide ('0' ≤ c) && decide (c ≤ '9')) || c == '_'

/-- ASCII digit. -/
def isDigitChar (c : Char) : Bool :=
  decide ('0' ≤ c) && decide (c ≤ '9')

/-- The two bullet glyphs rewritten by the reply formatter: `*` and U+2022. -/
def isBulletChar (c : Char) : Bool :=
  c == '*' || c == '•'

/-- Line-break characters recognised by Python's `str.splitlines`. -/
def isLineBreakChar (c : Char) : Bool :=
  c == '\n' || c == '\x0d' || c == '\x0b' || c == '\x0c' ||
  c == '\x1c' || c == '\x1d' || c == '\x1e' || c == '\x85' ||
  c == '\u2028' || c == '\u2029'

/-- Python `str.lower` (ASCII fragment). -/
def toLowerL (s : List Char) : List Char := s.map Char.toLower

/-- Python `str.lstrip()`. -/
def pyLStrip (s : List Char) : List Char := s.dropWhile isWsChar

/-- Python `str.rstrip()`. -/
def pyRStrip : List Char → List Char
  | [] => []
  | c :: cs =>
    let r := pyRStrip cs
    if r.isEmpty then (if isWsChar c then [] else [c]) else c :: r

/-- Python `str.strip()`. -/
def pyStrip (s : List Char) : List Char := pyLStrip (pyRStrip s)

/-- Model of `startsWithL pat s`: does `s` start with `pat`? (Python `str.startswith`.) -/
def startsWithL : List Char → List Char → Bool
  | [], _ => true
  | _ :: _, [] => false
  | p :: ps, c :: cs => p == c && startsWithL ps cs

/-- Model of `containsSub pat s`: Python's substring test `pat in s`. -/
def containsSub (pat : List Char) : List Char → Bool
  | [] => startsWithL pat []
  | c :: cs => startsWithL pat (c :: cs) || containsSub pat cs

/-- Case-insensitive prefix test (ASCII `re.IGNORECASE` literal matching). -/
def ciStartsWith : List Char → List Char → Bool
  | [], _ => true
  | _ :: _, [] => false
  | p :: ps, c :: cs => p.toLower == c.toLower && ciStartsWith ps cs

-- ————————————————————————————————————————————————————————————————————————
-- app/utils.py
-- ————————————————————————————————————————————————————————————————————————

/-- An FAQ record (`{question, answer}`), as loaded from `faqs.json`. -/
structure Faq where
  question : List Char
  answer : List Char
deriving DecidableEq

/-- Python `dict` assignment `m[k] = v`: overwrite in place if the key is
present (keeping its original insertion position), else append. -/
def upsert (m : List (List Char × List Char)) (k v : List Char) :
    List (List Char × List Char) :=
  if m.any (fun kv => kv.1 == k) then
    m.map (fun kv => if kv.1 == k then (k, v) else kv)
  else m ++ [(k, v)]

/-- One iteration of the mapping-building loop of
`replace_placeholders_in_reply` (utils.py lines 42-55). -/
def addFaqMapping (m : List (List Char × List Char)) (f : Faq) :
    List (List Char × List Char) :=
  let q := toLowerL f.question
  let a := f.answer
  let m1 :=
    if containsSub (str "managed cloud hosting") q || containsSub (str "managed cloud") q then
      upsert (upsert m (str "service 1") a) (str "managed cloud hosting") a
    else m
  let m2 :=
    if containsSub (str "virtual private servers") q || containsSub (str "vps") q then
      upsert (upsert m1 (str "service 2") a) (str "vps") a
    else m1
  let m3 :=
    if containsSub (str "public cloud") q || containsSub (str "public cloud services") q then
      upsert (upsert m2 (str "service 3") a) (str "public cloud services") a
    else m2
  if startsWithL (str "what cloud") q then upsert m3 (str "cloud_offerings_list") a else m3

/-- The `mapping` dict built by `replace_placeholders_in_reply`. -/
def buildMapping (faqs : List Faq) : List (List Char × List Char) :=
  faqs.foldl addFaqMapping []

/-- Model of `re.sub` of the case-insensitive literal pattern `pat` by `repl`
(non-overlapping, left to right).  Structural recursion on a fuel that the
wrapper sets to the text length (each step consumes at least one character,
since the patterns used — `[key]` — are nonempty). -/
def subLitAux (pat repl : List Char) : Nat → List Char → List Char
  | _, [] => []
  | 0, t => t
  | n + 1, c :: cs =>
    if ciStartsWith pat (c :: cs) then
      repl ++ subLitAux pat repl n ((c :: cs).drop pat.length)
    else c :: subLitAux pat repl n cs

/-- Model of `re.sub(re.compile(r"\[" + re.escape(key) + r"\]", re.IGNORECASE), repl, t)`. -/
def subBracket (key repl t : List Char) : List Char :=
  subLitAux ('[' :: key ++ [']']) repl t.length t

/-- Model of `re.sub(rf"\b{re.escape(key)}\b", repl, t, flags=re.IGNORECASE)`.
All the mapping keys of utils.py start and end with a word character, so the
leading `\b` holds exactly when the previous character is absent or a
non-word character, and the trailing `\b` exactly when the next character is
absent or a non-word character.  The scanner tracks the word-ness of the
previous character of the ORIGINAL text (matching continues after each
replaced region, whose last character is a word character). -/
def subWordAux (key repl : List Char) : Nat → Bool → List Char → List Char
  | _, _, [] => []
  | 0, _, t => t
  | n + 1, prevW, c :: cs =>
    if !prevW && ciStartsWith key (c :: cs) &&
        (match (c :: cs).drop key.length with
         | [] => true
         | d :: _ => !isWordChar d) then
      repl ++ subWordAux key repl n true ((c :: cs).drop key.length)
    else c :: subWordAux key repl n (isWordChar c) cs

/-- Word-boundary substitution wrapper. -/
def subWord (key repl t : List Char) : List Char :=
  subWordAux key repl t.length false t

/-- Model of `safe_insert_replacement` from utils.py (lines 60-72). -/
def safe_insert_replacement (text key replacement : List Char) : List Char :=
  if !(pyStrip replacement).isEmpty && containsSub (pyStrip replacement) text then text
  else
    let newText := subBracket key replacement text
    if newText ≠ text then newText
    else subWord key replacement text

/-- The "these include" rule of utils.py (lines 79-81). -/
def appendOfferings (mapping : List (List Char × List Char)) (out : List Char) :
    List Char :=
  let cond := containsSub (str "these include") (toLowerL out) ||
              containsSub (str "these include:") (toLowerL out)
  match mapping.find? (fun kv => kv.1 == str "cloud_offerings_list") with
  | some kv =>
    if cond && !kv.2.isEmpty then
      if containsSub kv.2 out then out else out ++ str "\n\n" ++ kv.2
    else out
  | none => out

/-- Scanner for `re.split(r'(?<=[.!?])\s+', s)`: cut after every
terminal-punctuation character that is followed by whitespace, consuming the
maximal whitespace run.  `acc` is the current piece, reversed; `sep = true`
while consuming a separator run. -/
def ssAux : List Char → Bool → List Char → List (List Char)
  | acc, false, [] => [acc.reverse]
  | _, true, [] => [[]]
  | acc, false, c :: cs =>
    match acc with
    | p :: _ =>
      if isTermChar p && isWsChar c then acc.reverse :: ssAux [] true cs
      else ssAux (c :: acc) false cs
    | [] => ssAux [c] false cs
  | _, true, c :: cs =>
    if isWsChar c then ssAux [] true cs else ssAux [c] false cs

/-- Model of `re.split(r'(?<=[.!?])\s+', s)`. -/
def splitSentences (s : List Char) : List (List Char) := ssAux [] false s

/-- The consecutive-duplicate sentence filter of utils.py (lines 86-96):
strip each piece, drop empty pieces, drop a piece equal to the previous kept
piece. -/
def dedupAux : Option (List Char) → List (List Char) → List (List Char)
  | _, [] => []
  | prev, s :: rest =>
    let t := pyStrip s
    if t.isEmpty then dedupAux prev rest
    else if prev == some t then dedupAux prev rest
    else t :: dedupAux (some t) rest

/-- Model of `replace_placeholders_in_reply` from utils.py (lines 30-99).  (The code
after the first `return` statement, lines 102-128, is unreachable and is not
modelled.) -/
def replace_placeholders_in_reply (reply : List Char) (faqs : List Faq) : List Char :=
  if reply.isEmpty || faqs.isEmpty then reply
  else
    let mapping := buildMapping faqs
    let out1 := mapping.foldl (fun o kv => safe_insert_replacement o kv.1 kv.2) reply
    let out2 := appendOfferings mapping out1
    let ded := dedupAux none (splitSentences (pyStrip out2))
    if ded.isEmpty then out2 else List.intercalate [' '] ded

-- ————————————————————————————————————————————————————————————————————————
-- app/llm_engine.py
-- ————————————————————————————————————————————————————————————————————————

/-- The filler keywords of `_FILLER_PREFIXES` (each pattern is
`^\s*KEYWORD[!.,]?\s*`, case-insensitive), in source order. -/
def fillerKeywords : List (List Char) :=
  [str "excellent", str "great", str "okay", str "sure",
   str "thanks", str "thank you", str "perfect", str "alright"]

/-- Try one filler pattern `^\s*kw[!.,]?\s*` at the start of `r`; on a match
return the text with the match removed and then `.strip()`-ped (as the code
does `reply = new_reply.strip()`). -/
def tryFiller (kw r : List Char) : Option (List Char) :=
  let r0 := pyLStrip r
  if ciStartsWith kw r0 then
    let r1 := r0.drop kw.length
    let r2 := match r1 with
      | c :: cs => if c == '!' || c == '.' || c == ',' then cs else r1
      | [] => r1
    some (pyStrip (pyLStrip r2))
  else none

/-- The filler-prefix removal loop of `postprocess_reply` (lines 85-89):
first matching pattern is removed, then the loop breaks. -/
def stripFiller (r : List Char) : List Char :=
  match fillerKeywords.findSome? (fun kw => tryFiller kw r) with
  | some r2 => r2
  | none => r

/-- Model of `reply.replace("\r\n", "\n")` (left-to-right, non-overlapping). -/
def replaceCrLf : List Char → List Char
  | '\x0d' :: '\n' :: cs => '\n' :: replaceCrLf cs
  | c :: cs => c :: replaceCrLf cs
  | [] => []

/-- Model of `reply.replace("\r\n", "\n").replace("\r", "\n")`. -/
def normalizeCR (r : List Char) : List Char :=
  (replaceCrLf r).map (fun c => if c == '\x0d' then '\n' else c)

/-- Model of `re.sub(r'\s*[\*•]\s*', r'\n- ', reply)` as a scanner.
In normal mode (`afterBullet = false`) pending whitespace is buffered in
`buf`: if a bullet character follows it the whole run is part of the match
(leading `\s*`), else the buffer is flushed verbatim.  After a bullet,
trailing `\s*` greedily swallows whitespace (`afterBullet = true`). -/
def bulAux : Bool → List Char → List Char → List Char
  | true, _, [] => []
  | true, buf, c :: cs =>
    if isWsChar c then bulAux true buf cs
    else if isBulletChar c then '\n' :: '-' :: ' ' :: bulAux true buf cs
    else c :: bulAux false [] cs
  | false, buf, [] => buf
  | false, buf, c :: cs =>
    if isWsChar c then bulAux false (buf ++ [c]) cs
    else if isBulletChar c then '\n' :: '-' :: ' ' :: bulAux true [] cs
    else buf ++ c :: bulAux false [] cs

/-- The bullet-marker rewrite (llm_engine.py line 97). -/
def bulletSub (r : List Char) : List Char := bulAux false [] r

/-- Model of `(?<!\n)\b` before a digit run: the previous character must exist-or-not
be a newline, and must not be a word character. -/
def numBoundaryOk : Option Char → Bool
  | none => true
  | some p => !isWordChar p && !(p == '\n')

/-- Model of `re.sub(r'(?<!\n)(\b\d+\.)\s*', r'\n\1 ', reply)` as a scanner.
`swallow = true` while consuming the trailing `\s*` of a match; `prev` is
the last character of the original text already consumed; `buf` is the
pending digit run together with (`bufOk`) whether the boundary conditions
held at its start. -/
def numAux : Bool → Option Char → List Char → Bool → List Char → List Char
  | true, _, _, _, [] => []
  | true, prev, _, _, c :: cs =>
    if isWsChar c then numAux true (some c) [] false cs
    else if isDigitChar c then numAux false prev [c] (numBoundaryOk prev) cs
    else c :: numAux false (some c) [] false cs
  | false, _, buf, _, [] => buf
  | false, prev, buf, bufOk, c :: cs =>
    if isDigitChar c then
      if buf.isEmpty then numAux false prev [c] (numBoundaryOk prev) cs
      else numAux false prev (buf ++ [c]) bufOk cs
    else if c == '.' && !buf.isEmpty && bufOk then
      '\n' :: (buf ++ '.' :: ' ' :: numAux true (some '.') [] false cs)
    else buf ++ c :: numAux false (some c) [] false cs

/-- The numbered-item rewrite (llm_engine.py line 100). -/
def numberedSub (r : List Char) : List Char := numAux false none [] false r

/-- Recognise the alternation `(-\s|(\d+\.\s))` at the start of `t`,
returning the matched text (capture group 2) and the remaining input. -/
def listMarker (t : List Char) : Option (List Char × List Char) :=
  match t with
  | '-' :: w :: rest => if isWsChar w then some (['-', w], rest) else none
  | c :: _ =>
    if isDigitChar c then
      match t.dropWhile isDigitChar with
      | '.' :: w :: rest =>
        if isWsChar w then some (t.takeWhile isDigitChar ++ ['.', w], rest) else none
      | _ => none
    else none
  | [] => none

/-- Model of `re.sub(r'([^\n])\n(-\s|(\d+\.\s))', r'\1\n\n\2', reply)` (llm_engine.py
line 104), fuelled structural scanner (each match consumes ≥ 4 characters). -/
def blankBeforeAux : Nat → List Char → List Char
  | _, [] => []
  | 0, t => t
  | n + 1, x :: t =>
    match t with
    | '\n' :: rest =>
      if !(x == '\n') then
        match listMarker rest with
        | some (g2, rest2) => x :: '\n' :: '\n' :: (g2 ++ blankBeforeAux n rest2)
        | none => x :: blankBeforeAux n t
      else x :: blankBeforeAux n t
    | _ => x :: blankBeforeAux n t

/-- Wrapper for the blank-line-before-list rewrite. -/
def blankBeforeList (r : List Char) : List Char := blankBeforeAux r.length r

/-- Emit a run of `n` newline characters, collapsed to two if `n ≥ 3`
(`re.sub(r'\n{3,}', '\n\n', reply)`, llm_engine.py line 107). -/
def emitNl (n : Nat) : List Char :=
  if n ≥ 3 then ['\n', '\n'] else List.replicate n '\n'

/-- Scanner for the newline-collapsing rewrite; `nl` counts pending newlines. -/
def colAux (nl : Nat) : List Char → List Char
  | [] => emitNl nl
  | c :: cs => if c == '\n' then colAux (nl + 1) cs else emitNl nl ++ c :: colAux 0 cs

/-- The newline-collapsing rewrite. -/
def collapseNl (r : List Char) : List Char := colAux 0 r

/-- Python `str.splitlines` (no trailing empty line; `\r\n` is one break).
`sawCR` records that the previous character was a carriage return whose line
break was already emitted, so an immediately following `\n` is part of the
same break. -/
def slAux (acc : List Char) (sawCR : Bool) : List Char → List (List Char)
  | [] => if acc.isEmpty then [] else [acc.reverse]
  | c :: cs =>
    if sawCR && c == '\n' then slAux acc false cs
    else if c == '\x0d' then acc.reverse :: slAux [] true cs
    else if isLineBreakChar c then acc.reverse :: slAux [] false cs
    else slAux (c :: acc) false cs

/-- Model of `splitlines`, then strip each line, drop empty lines, rejoin with `\n`
(llm_engine.py lines 110-112). -/
def joinStrippedLines (r : List Char) : List Char :=
  List.intercalate ['\n'] (((slAux [] false r).map pyStrip).filter (fun l => !l.isEmpty))

/-- Model of `re.sub(r'(?<!\n)\s-\s', r'\n- ', reply)` (llm_engine.py line 116) as a
scanner; `prev` is the last original character consumed. -/
def dashAux (prev : Option Char) : List Char → List Char
  | a :: b :: c :: rest =>
    if !(prev == some '\n') && isWsChar a && b == '-' && isWsChar c then
      '\n' :: '-' :: ' ' :: dashAux (some c) rest
    else a :: dashAux (some a) (b :: c :: rest)
  | t => t

/-- The lone-dash bullet rewrite. -/
def dashSub (r : List Char) : List Char := dashAux none r

/-- The fixed follow-up question appended by the reply formatter. -/
def followUpText : List Char :=
  str "\n\nWould you like instructions to set this up or should I escalate this?"

/-- Model of `reply[-200:]` (Python negative slicing: the whole string if shorter). -/
def lastN (n : Nat) (t : List Char) : List Char := t.drop (t.length - n)

/-- The condition guarding the follow-up append (llm_engine.py lines
119-121): no `?` in the last 200 characters, no "escalat" in the lowered
text, the lowered text does not start with "i'm having trouble"
(`re.match`), and length > 20. -/
def wantsFollowUp (reply : List Char) : Bool :=
  !(lastN 200 reply).any (fun c => c == '?') &&
  (let lower := toLowerL reply
   !containsSub (str "escalat") lower &&
   !startsWithL (str "i" ++ apo :: str "m having trouble") lower &&
   decide (reply.length > 20))

/-- Lines 118-122 of llm_engine.py: maybe append the follow-up question. -/
def maybeFollowUp (reply : List Char) : List Char :=
  if wantsFollowUp reply then pyRStrip reply ++ followUpText else reply

/-- Model of `postprocess_reply` up to, but not including, the follow-up append (the
"formatted" text on which the append decision is made). -/
def preFollowUp (raw : List Char) : List Char :=
  dashSub (joinStrippedLines (collapseNl (blankBeforeList (numberedSub
    (bulletSub (normalizeCR (stripFiller (pyStrip raw))))))))

/-- Model of `postprocess_reply` from llm_engine.py (lines 69-124). -/
def postprocess_reply (raw : List Char) : List Char :=
  if raw.isEmpty then raw else maybeFollowUp (preFollowUp raw)

/-- The fixed degraded-service message returned when the completion call
raises (llm_engine.py line 271). -/
def troubleMsg : List Char :=
  str "I" ++ apo :: str "m having trouble reaching the support system right now. Please try again later."

/-- The fixed escalation message (llm_engine.py line 264). -/
def escalationMsg : List Char :=
  str "I" ++ apo :: str "m escalating this issue to a human support agent. Please wait while I connect you."

/-- Model of `low_confidence_phrases` (llm_engine.py lines 258-261). -/
def lowConfidencePhrases : List (List Char) :=
  [str "i don" ++ apo :: str "t know", str "i am not sure",
   str "i" ++ apo :: str "m not sure", str "i cannot help with",
   str "can" ++ apo :: str "t help", str "i might be wrong",
   str "please contact support", str "escalate"]

/-- The low-confidence test of `generate_response`:
`any(p in reply.lower() for p in low_confidence_phrases)`. -/
def lowConfidence (reply : List Char) : Bool :=
  lowConfidencePhrases.any (fun p => containsSub p (toLowerL reply))

/-- Model of `generate_response` from llm_engine.py (lines 244-271).  The completion
call (`_call_generate_content` on the prompt built from `context` and
`userInput`) is the external collaborator: its outcome is the `svc`
argument, `.error` meaning the call raised.  The `except` clause maps any
such failure to the fixed trouble message, so the model is total — no
exception ever propagates. -/
def generate_response (context userInput : List Char)
    (svc : Except Unit (List Char)) : List Char :=
  match svc with
  | .error _ => troubleMsg
  | .ok raw =>
    let reply := postprocess_reply raw
    if lowConfidence reply || decide ((pyStrip reply).length < 10) then escalationMsg
    else reply

-- ————————————————————————————————————————————————————————————————————————
-- app/routes.py — the /chat intent router and the CSV export
-- ————————————————————————————————————————————————————————————————————————

/-- A message's sender: `"user"` or `"clara"`. -/
inductive Sender where
  | user : Sender
  | clara : Sender
deriving DecidableEq

/-- A persisted `Message` of a session, in timestamp (= insertion) order. -/
structure Msg where
  sender : Sender
  text : List Char
deriving DecidableEq

/-- The outcome of one `/chat` request: the JSON `reply` (none on a 400),
the session's message list after the request, and whether the completion
service was invoked. -/
structure ChatOut where
  reply : Option (List Char)
  history : List Msg
  llmCalled : Bool
deriving DecidableEq

/-- The most recent `sender="clara"` message
(`Message.query.filter_by(...).order_by(timestamp.desc()).first()`). -/
def lastClara (h : List Msg) : Option Msg :=
  (h.filter (fun m => decide (m.sender = Sender.clara))).getLast?

/-- Lowered text of the last Clara message, `""` if there is none
(routes.py line 60). -/
def lastBotTextOf (h : List Msg) : List Char :=
  match lastClara h with
  | some m => toLowerL m.text
  | none => []

/-- The second most recent `sender="user"` message
(`.order_by(timestamp.desc()).offset(1).first()`, routes.py lines 86-91). -/
def prevUser (h : List Msg) : Option Msg :=
  ((h.filter (fun m => decide (m.sender = Sender.user))).reverse).get? 1

/-- Lowered text of the previous user turn, `""` if there is none. -/
def prevUserTextOf (h : List Msg) : List Char :=
  match prevUser h with
  | some m => toLowerL m.text
  | none => []

/-- Model of `short_yes = {"yes", "y", "sure", "ok", "okay"}` (routes.py line 79). -/
def shortYes : List (List Char) :=
  [str "yes", str "y", str "sure", str "ok", str "okay"]

/-- The numbered service-selection prompt (routes.py lines 96-102). -/
def selectionPrompt : List Char :=
  str "I listed several cloud solutions. Please choose which you" ++ apo ::
  str "d like to explore:\n\n1. Managed Cloud Hosting\n2. Virtual Private Servers (VPS)\n3. Public Cloud Services\n\nReply with \"service 1\", \"service 2\", or \"service 3\" to get details." 

/-- The `service N → FAQ question` table (routes.py lines 126-130). -/
def serviceTarget : Nat → Option (List Char)
  | 1 => some (str "Tell me about Managed Cloud Hosting")
  | 2 => some (str "Tell me about Virtual Private Servers (VPS)")
  | 3 => some (str "Tell me about Public Cloud Services")
  | _ => none

/-- The quick keyword table (routes.py lines 146-156), in source order. -/
def quickKeywordMap : List (List Char × List Char) :=
  [(str "managed", str "Tell me about Managed Cloud Hosting"),
   (str "managed hosting", str "Tell me about Managed Cloud Hosting"),
   (str "managed cloud", str "Tell me about Managed Cloud Hosting"),
   (str "vps", str "Tell me about Virtual Private Servers (VPS)"),
   (str "virtual private server", str "Tell me about Virtual Private Servers (VPS)"),
   (str "public", str "Tell me about Public Cloud Services"),
   (str "public cloud", str "Tell me about Public Cloud Services"),
   (str "cloud offering", str "What cloud offerings do you have"),
   (str "cloud offerings", str "What cloud offerings do you have")]

/-- Case-insensitive exact-question lookup used by the `service N` and
keyword branches (`f.get("question","").lower() == target_q.lower()`). -/
def findByQuestion (faqs : List Faq) (target : List Char) : Option Faq :=
  faqs.find? (fun f => toLowerL f.question == toLowerL target)

/-- Model of `re.match(r"service\s*(\d+)", lowered)`: after the literal `service`,
skip whitespace, then read a nonempty digit run and return its value. -/
def parseServiceIdx (lowered : List Char) : Option Nat :=
  if startsWithL (str "service") lowered then
    let rest := pyLStrip (lowered.drop 7)
    let ds := rest.takeWhile isDigitChar
    if ds.isEmpty then none
    else some (ds.foldl (fun n c => 10 * n + (c.toNat - 48)) 0)
  else none

/-- Persist Clara's reply and answer the request (each return site of
`chat()` saves a `sender="clara"` message and returns the same text). -/
def finishChat (hist1 : List Msg) (reply : List Char) (llm : Bool) : ChatOut :=
  ⟨some reply, hist1 ++ [⟨Sender.clara, reply⟩], llm⟩

/-- The branch-1 intent test (routes.py line 64). -/
def cloudIntent (uqLower : List Char) : Bool :=
  containsSub (str "cloud offering") uqLower ||
  containsSub (str "cloud offerings") uqLower ||
  (containsSub (str "tell me about") uqLower && containsSub (str "cloud") uqLower)

/-- Branch 4: the quick-keyword loop (routes.py lines 157-169).  The first
keyword contained in the lowered query whose target question has an FAQ
entry wins; a keyword whose target is missing falls through to the next. -/
def keywordLookup (faqs : List Faq) (lowered : List Char) :
    List (List Char × List Char) → Option Faq
  | [] => none
  | (kw, target) :: rest =>
    if containsSub kw lowered then
      match findByQuestion faqs target with
      | some fm => some fm
      | none => keywordLookup faqs lowered rest
    else keywordLookup faqs lowered rest

/-- Branches 4-6 of `chat()` (routes.py lines 145-197): keyword table, then
fuzzy FAQ match, then the LLM fallback; the chosen reply is
placeholder-resolved, persisted, and returned. -/
def chatTail (faqs : List Faq) (hist1 : List Msg) (q : List Char)
    (fuzzy : List Char → List Faq → Option Faq)
    (svc : Except Unit (List Char)) : ChatOut :=
  let lowered := toLowerL q
  match keywordLookup faqs lowered quickKeywordMap with
  | some fm => finishChat hist1 (replace_placeholders_in_reply fm.answer faqs) false
  | none =>
    match fuzzy q faqs with
    | some fm => finishChat hist1 (replace_placeholders_in_reply fm.answer faqs) false
    | none =>
      let recent := hist1
      let contextText :=
        List.intercalate ['\n']
          (((recent.drop (recent.length - 10))).map (fun m =>
            (match m.sender with
             | Sender.user => str "user"
             | Sender.clara => str "clara") ++ str ": " ++ m.text))
      finishChat hist1
        (replace_placeholders_in_reply (generate_response contextText q svc) faqs) true

/-- Branch 3 of `chat()` (routes.py lines 120-143): `service N` selector. -/
def chatServiceN (faqs : List Faq) (hist1 : List Msg) (q : List Char)
    (fuzzy : List Char → List Faq → Option Faq)
    (svc : Except Unit (List Char)) : ChatOut :=
  let lowered := toLowerL q
  if startsWithL (str "service") lowered then
    match parseServiceIdx lowered with
    | some idx =>
      match serviceTarget idx with
      | some target =>
        match findByQuestion faqs target with
        | some fm => finishChat hist1 (replace_placeholders_in_reply fm.answer faqs) false
        | none => chatTail faqs hist1 q fuzzy svc
      | none => chatTail faqs hist1 q fuzzy svc
    | none => chatTail faqs hist1 q fuzzy svc
  else chatTail faqs hist1 q fuzzy svc

/-- Branch 2 of `chat()` (routes.py lines 77-118): a bare confirmation word
after Clara asked about cloud offerings. -/
def chatConfirm (faqs : List Faq) (hist1 : List Msg) (q : List Char)
    (fuzzy : List Char → List Faq → Option Faq)
    (svc : Except Unit (List Char)) : ChatOut :=
  if shortYes.any (fun y => y == toLowerL q) &&
      containsSub (str "would you like to know about our specific cloud")
        (lastBotTextOf hist1) then
    match faqs.find? (fun f =>
        startsWithL (str "what cloud offerings") (toLowerL f.question)) with
    | some offering =>
      if shortYes.any (fun y => y == prevUserTextOf hist1) then
        finishChat hist1 selectionPrompt false
      else
        finishChat hist1 (replace_placeholders_in_reply offering.answer faqs) false
    | none => chatServiceN faqs hist1 q fuzzy svc
  else chatServiceN faqs hist1 q fuzzy svc

/-- The `/chat` handler (routes.py lines 22-197).  The argument `msgRaw` is
the JSON `message` field; `hist` is the session's message list before the
request (session creation and ids are the storage collaborator's business
and are not modelled); `fuzzy` is the `find_best_faq_match` oracle
(`difflib`-based fuzzy matching, an external library); `svc` is the outcome
of this request's completion call.  Returns `none` as `reply` for the
empty-message 400. -/
def chat (faqs : List Faq) (hist : List Msg) (msgRaw : List Char)
    (fuzzy : List Char → List Faq → Option Faq)
    (svc : Except Unit (List Char)) : ChatOut :=
  let q := pyStrip msgRaw
  if q.isEmpty then ⟨none, hist, false⟩
  else
    let hist1 := hist ++ [⟨Sender.user, q⟩]
    if cloudIntent (toLowerL q) then
      match faqs.find? (fun f =>
          startsWithL (str "what cloud") (toLowerL f.question)) with
      | some offering =>
        finishChat hist1 (replace_placeholders_in_reply offering.answer faqs) false
      | none => chatConfirm faqs hist1 q fuzzy svc
    else chatConfirm faqs hist1 q fuzzy svc

/-- A persisted message as read by the CSV export. -/
structure CMsg where
  id : Nat
  sender : List Char
  text : List Char
  timestamp : List Char
deriving DecidableEq

/-- A session together with its messages in timestamp order
(`Message.query.filter_by(session_id=s.id).order_by(...)`). -/
structure CSession where
  id : Nat
  userLabel : List Char
  createdAt : List Char
  msgs : List CMsg
deriving DecidableEq

/-- One data row handed to `csv.writer.writerow` (the seven field values;
serialization is the csv library's business).  `messageId = none` models the
empty `message_id` field of a session without messages. -/
structure CsvRow where
  sessionId : Nat
  userLabel : List Char
  createdAt : List Char
  messageId : Option Nat
  sender : List Char
  text : List Char
  timestamp : List Char
deriving DecidableEq

/-- The header row written first by `export_sessions_csv`. -/
def csvHeader : List (List Char) :=
  [str "session_id", str "user_label", str "created_at", str "message_id",
   str "sender", str "text", str "timestamp"]

/-- The row for a session without messages (routes.py line 265). -/
def emptySessionRow (s : CSession) : CsvRow :=
  ⟨s.id, s.userLabel, s.createdAt, none, [], [], []⟩

/-- The row for one message (routes.py line 268); newlines in the text are
replaced by spaces. -/
def msgRow (s : CSession) (m : CMsg) : CsvRow :=
  ⟨s.id, s.userLabel, s.createdAt, some m.id, m.sender,
   m.text.map (fun c => if c == '\n' then ' ' else c), m.timestamp⟩

/-- The data rows contributed by one session. -/
def sessionRows (s : CSession) : List CsvRow :=
  if s.msgs.isEmpty then [emptySessionRow s] else s.msgs.map (msgRow s)

/-- Model of `export_sessions_csv` (routes.py lines 251-275): the data rows written
after the header, sessions in `created_at` order. -/
def export_sessions_csv (db : List CSession) : List CsvRow :=
  db.foldr (fun s acc => sessionRows s ++ acc) []

-- ————————————————————————————————————————————————————————————————————————
-- Concrete fixtures used by witness statements
-- ————————————————————————————————————————————————————————————————————————

/-- A small FAQ list shaped like the repository's `faqs.json`: an umbrella
"what cloud offerings" entry plus the three service entries. -/
def sampleFaqs : List Faq :=
  [⟨str "What cloud offerings do you have",
    str "We offer Managed Cloud Hosting, VPS, and Public Cloud Services. Would you like to know about our specific cloud solutions?"⟩,
   ⟨str "Tell me about Managed Cloud Hosting",
    str "Managed Cloud Hosting gives you a fully managed server."⟩,
   ⟨str "Tell me about Virtual Private Servers (VPS)",
    str "VPS gives you root access to a private slice."⟩,
   ⟨str "Tell me about Public Cloud Services",
    str "Public Cloud Services offer elastic compute."⟩]

/-- A fuzzy-match oracle that never matches (the behaviour of
`find_best_faq_match` when no question is close enough). -/
def noFuzzy : List Char → List Faq → Option Faq := fun _ _ => none

/-- The completion text used by the counterexample to C10:
"i'm having trouble with my server today". -/
def c10Raw : List Char := str "i" ++ apo :: str "m having trouble with my server today"

-- ————————————————————————————————————————————————————————————————————————
-- C6, C7, C9: the /chat intent router
-- ————————————————————————————————————————————————————————————————————————

/-- The first FAQ of `sampleFaqs`: the umbrella offerings entry. -/
def sampleOfferings : Faq :=
  ⟨str "What cloud offerings do you have",
   str "We offer Managed Cloud Hosting, VPS, and Public Cloud Services. Would you like to know about our specific cloud solutions?"⟩

/-- Lowered text of the last user message of a history, `""` if none: after
the current user message is saved, this is what `prev_user` (desc offset 1)
retrieves. -/
def lastUserTextOf (h : List Msg) : List Char :=
  match (h.filter (fun m => decide (m.sender = Sender.user))).getLast? with
  | some m => toLowerL m.text
  | none => []

/-- A two-session database: one session empty and one with two messages. -/
def sampleDb : List CSession :=
  [⟨1, str "guest", str "t0", []⟩,
   ⟨2, str "guest", str "t1",
    [⟨5, str "user", str "a\nb", str "t2"⟩,
     ⟨6, str "clara", str "c", str "t3"⟩]⟩]

-- ————————————————————————————————————————————————————————————————————————
-- C5: the reply formatter leaves no double blank line and no bullet glyph
-- ————————————————————————————————————————————————————————————————————————

/-- Scanner deciding whether two consecutive newline characters occur. -/
def hasNN : List Char → Bool
  | a :: b :: rest => (a == '\n' && b == '\n') || hasNN (b :: rest)
  | _ => false

/-- Scanner deciding whether three consecutive newline characters occur
(two consecutive blank lines). -/
def has3N : List Char → Bool
  | a :: b :: c :: rest => (a == '\n' && b == '\n' && c == '\n') || has3N (b :: c :: rest)
  | _ => false

/-- No character of the text is a bullet glyph. -/
def bulletFree (t : List Char) : Bool := t.all (fun c => !isBulletChar c)

-- ————————————————————————————————————————————————————————————————————————
-- C1 and C2: the placeholder resolver's sentence splitting and
-- consecutive-duplicate suppression
-- ————————————————————————————————————————————————————————————————————————

/-- No position of the text has a terminal-punctuation character followed by
whitespace (so the sentence splitter makes no cut inside it). -/
def noSplitB : List Char → Bool
  | a :: b :: r => !(isTermChar a && isWsChar b) && noSplitB (b :: r)
  | _ => true

/-- The same condition read over a reversed accumulator (head = the most
recently consumed character). -/
def noSplitRevB : List Char → Bool
  | b :: a :: r => !(isTermChar a && isWsChar b) && noSplitRevB (a :: r)
  | _ => true

/-- The text ends with terminal punctuation. -/
def endsTerm (l : List Char) : Bool :=
  match l.getLast? with
  | some c => isTermChar c
  | none => false

/-- Every character is whitespace. -/
def allWs (l : List Char) : Bool := l.all isWsChar

/-- Shape of the raw split pieces: no internal cut point, and every
non-last piece ends in terminal punctuation. -/
def goodPieces : List (List Char) → Bool
  | [] => true
  | p :: r => noSplitB p && (r.isEmpty || endsTerm p) && goodPieces r

/-- Shape of the deduplicated pieces handed to `" ".join`: nonempty,
stripped, no internal cut point, and every non-last piece ends in terminal
punctuation. -/
def gj : List (List Char) → Bool
  | [] => true
  | p :: r =>
    !p.isEmpty && noSplitB p && decide (pyStrip p = p) && (r.isEmpty || endsTerm p) && gj r

/-- Adjacent pieces differ, and the first differs from `prev`. -/
def chainNe (prev : Option (List Char)) : List (List Char) → Bool
  | [] => true
  | x :: r => decide (some x ≠ prev) && chainNe (some x) r

def countOcc (pat : List Char) : List Char → Nat
  | [] => 0
  | c :: cs => (if startsWithL pat (c :: cs) then 1 else 0) + countOcc pat cs

def c1Faqs : List Faq :=
  [⟨str "What cloud offerings do you have", str "We offer A.\nWe offer B."⟩]

def c2Faqs : List Faq :=
  [⟨str "Tell me about Managed Cloud Hosting", str "M"⟩,
   ⟨str "Tell me about VPS", str "X service 1 Y"⟩]

def plainFaqs : List Faq :=
  [⟨str "How do I reset my password", str "Use the reset link."⟩]

-- ————————————————————————————————————————————————————————————————————————
-- C3 and C4: error handling and low-confidence escalation in
-- generate_response
-- ————————————————————————————————————————————————————————————————————————

/-- C3.  For every exception raised while calling the completion service
(`svc = .error e`), `generate_response` returns exactly the fixed string
"I'm having trouble reaching the support system right now. Please try again
later.".  The model is a total function, so no exception ever propagates to
the caller. -/
theorem C3_error_fallback (e : Unit) (context userInput : List Char) :
    generate_response context userInput (Except.error e) = troubleMsg := rfl

/-- C4.  For every completion-service reply `raw`, if the formatted reply
contains one of the fixed low-confidence phrases or its stripped length is
below 10 characters, `generate_response` returns the fixed escalation
string instead of the formatted reply. -/
theorem C4_low_confidence_escalation (context userInput raw : List Char)
    (h : lowConfidence (postprocess_reply raw) = true ∨
         (pyStrip (postprocess_reply raw)).length < 10) :
    generate_response context userInput (Except.ok raw) = escalationMsg := by
  have hc : (lowConfidence (postprocess_reply raw) ||
      decide ((pyStrip (postprocess_reply raw)).length < 10)) = true := by
    rcases h with h | h
    · simp [h]
    · simp [h]
  simp [generate_response, hc]

/-- Witness for C4 at the concrete raw reply "no" (stripped length 2). -/
theorem C4_witness :
    generate_response [] [] (Except.ok (str "no")) = escalationMsg :=
  C4_low_confidence_escalation [] [] (str "no") (Or.inr (by decide))

-- ————————————————————————————————————————————————————————————————————————
-- C10: the appended follow-up question triggers the escalation heuristic
-- ————————————————————————————————————————————————————————————————————————

theorem toLowerL_append (a b : List Char) :
    toLowerL (a ++ b) = toLowerL a ++ toLowerL b := List.map_append _ a b

theorem containsSub_append_right (p a b : List Char)
    (h : containsSub p b = true) : containsSub p (a ++ b) = true := by
  induction a with
  | nil => simpa using h
  | cons c a ih => simp [containsSub, ih]

/-- Counterexample to C10 as stated.  At the concrete completion text
"i'm having trouble with my server today" the three conditions of the
claim's characterisation hold — the formatted text has no question mark in
its last 200 characters, does not contain "escalat", and exceeds 20
characters — yet no follow-up is appended (the text starts with
"i'm having trouble", the conjunct the claim omits) and `generate_response`
returns the formatted reply itself, not the escalation message. -/
theorem C10_counterexample :
    (lastN 200 (preFollowUp c10Raw)).any (fun c => c == '?') = false ∧
    containsSub (str "escalat") (toLowerL (preFollowUp c10Raw)) = false ∧
    (preFollowUp c10Raw).length > 20 ∧
    postprocess_reply c10Raw = c10Raw ∧
    generate_response [] [] (Except.ok c10Raw) ≠ escalationMsg := by
  refine ⟨by decide, by decide, by decide, by decide, by decide⟩

/-- C10, amended.  For every nonempty raw completion text for which
`postprocess_reply` actually appends the fixed follow-up question — i.e. the
formatted text has no question mark in its last 200 characters, does not
contain "escalat", does not start (case-insensitively) with "i'm having
trouble", and exceeds 20 characters — `generate_response` returns the fixed
escalation message rather than the formatted reply, because the appended
follow-up text itself contains the low-confidence trigger word
"escalate". -/
theorem C10_followup_forces_escalation (context userInput raw : List Char)
    (hraw : raw ≠ [])
    (h : wantsFollowUp (preFollowUp raw) = true) :
    generate_response context userInput (Except.ok raw) = escalationMsg := by
  have hpp : postprocess_reply raw =
      pyRStrip (preFollowUp raw) ++ followUpText := by
    have : raw.isEmpty = false := by
      cases raw with
      | nil => exact absurd rfl hraw
      | cons c cs => rfl
    simp [postprocess_reply, this, maybeFollowUp, h]
  have hesc : containsSub (str "escalate") (toLowerL (postprocess_reply raw)) = true := by
    rw [hpp, toLowerL_append]
    exact containsSub_append_right _ _ _ (by decide)
  have hlc : lowConfidence (postprocess_reply raw) = true := by
    have : str "escalate" ∈ lowConfidencePhrases := by decide
    simp only [lowConfidence, List.any_eq_true]
    exact ⟨str "escalate", this, hesc⟩
  simp [generate_response, hlc]

/-- Witness for the amended C10 at a concrete declarative completion text:
the follow-up conditions hold and the result is the escalation message. -/
theorem C10_witness :
    wantsFollowUp (preFollowUp (str "The server supports automatic backups and monitoring.")) = true ∧
    generate_response [] [] (Except.ok (str "The server supports automatic backups and monitoring.")) = escalationMsg :=
  ⟨by decide,
   C10_followup_forces_escalation [] [] _ (by decide) (by decide)⟩

theorem sampleFaqs_head : sampleFaqs.head? = some sampleOfferings := by decide

theorem lastBotTextOf_append_user (h : List Msg) (q : List Char) :
    lastBotTextOf (h ++ [⟨Sender.user, q⟩]) = lastBotTextOf h := by
  simp [lastBotTextOf, lastClara, List.filter_append]

theorem prevUserTextOf_append_user (h : List Msg) (q : List Char) :
    prevUserTextOf (h ++ [⟨Sender.user, q⟩]) = lastUserTextOf h := by
  have hf : List.filter (fun m => decide (m.sender = Sender.user)) [(⟨Sender.user, q⟩ : Msg)]
      = [⟨Sender.user, q⟩] := by simp [List.filter]
  simp only [prevUserTextOf, prevUser, lastUserTextOf, List.filter_append, hf,
    List.reverse_append, List.reverse_cons, List.reverse_nil, List.nil_append,
    List.singleton_append, List.get?_cons_succ]
  rw [List.get?_zero, List.head?_reverse]

/-- A bare confirmation word is never the cloud-offerings intent and is
nonempty. -/
theorem shortYes_not_cloudIntent (s : List Char)
    (h : shortYes.any (fun y => y == s) = true) :
    cloudIntent s = false ∧ s ≠ [] := by
  simp only [List.any_eq_true] at h
  obtain ⟨y, hy, hbeq⟩ := h
  have hs : y = s := by simpa using hbeq
  subst hs
  simp only [shortYes, List.mem_cons, List.not_mem_nil, or_false] at hy
  rcases hy with h | h | h | h | h <;> subst h <;> exact ⟨by decide, by decide⟩

/-- C6.  For every `/chat` request whose message matches the explicit
cloud-offerings intent (it contains "cloud offering(s)", or both
"tell me about" and "cloud"), when the FAQ list has an entry whose question
starts with "what cloud" (case-insensitively, first such entry `off`), the
response reply is that entry's answer after placeholder resolution, the
reply is persisted as Clara's message, and the completion service is not
called. -/
theorem C6_cloud_offering_intent (faqs : List Faq) (hist : List Msg)
    (msgRaw : List Char) (fuzzy : List Char → List Faq → Option Faq)
    (svc : Except Unit (List Char)) (off : Faq)
    (h1 : cloudIntent (toLowerL (pyStrip msgRaw)) = true)
    (h2 : faqs.find? (fun f =>
        startsWithL (str "what cloud") (toLowerL f.question)) = some off) :
    chat faqs hist msgRaw fuzzy svc =
      ⟨some (replace_placeholders_in_reply off.answer faqs),
       hist ++ [⟨Sender.user, pyStrip msgRaw⟩,
         ⟨Sender.clara, replace_placeholders_in_reply off.answer faqs⟩],
       false⟩ := by
  have hq : (pyStrip msgRaw).isEmpty = false := by
    cases hq0 : pyStrip msgRaw with
    | nil => rw [hq0] at h1; exact absurd h1 (by decide)
    | cons c cs => rfl
  simp [chat, hq, h1, h2, finishChat]

/-- Witness for C6: the concrete request "What cloud offerings do you have?"
against `sampleFaqs` (the completion call would fail, but is never made). -/
theorem C6_witness :
    chat sampleFaqs [] (str "What cloud offerings do you have?") noFuzzy
        (Except.error ()) =
      ⟨some (replace_placeholders_in_reply sampleOfferings.answer sampleFaqs),
       [⟨Sender.user, pyStrip (str "What cloud offerings do you have?")⟩,
        ⟨Sender.clara, replace_placeholders_in_reply sampleOfferings.answer sampleFaqs⟩],
       false⟩ :=
  C6_cloud_offering_intent sampleFaqs [] _ noFuzzy (Except.error ())
    sampleOfferings (by decide) (by decide)

/-- C7.  In a session where the last Clara message asked about cloud
offerings (it contains "would you like to know about our specific cloud")
and the current message is a bare confirmation word, with an FAQ entry whose
question starts with "what cloud offerings" present: if the user's previous
turn was also a bare confirmation, `/chat` returns the three-item numbered
service-selection prompt; otherwise it returns the offerings FAQ answer
(placeholder-resolved). -/
theorem C7_double_yes (faqs : List Faq) (hist : List Msg) (msgRaw : List Char)
    (fuzzy : List Char → List Faq → Option Faq) (svc : Except Unit (List Char))
    (off : Faq)
    (h1 : shortYes.any (fun y => y == toLowerL (pyStrip msgRaw)) = true)
    (h2 : containsSub (str "would you like to know about our specific cloud")
        (lastBotTextOf hist) = true)
    (h3 : faqs.find? (fun f =>
        startsWithL (str "what cloud offerings") (toLowerL f.question)) = some off) :
    (shortYes.any (fun y => y == lastUserTextOf hist) = true →
      (chat faqs hist msgRaw fuzzy svc).reply = some selectionPrompt) ∧
    (shortYes.any (fun y => y == lastUserTextOf hist) = false →
      (chat faqs hist msgRaw fuzzy svc).reply =
        some (replace_placeholders_in_reply off.answer faqs)) := by
  obtain ⟨hci, hne⟩ := shortYes_not_cloudIntent _ h1
  have hq : (pyStrip msgRaw).isEmpty = false := by
    cases hq0 : pyStrip msgRaw with
    | nil =>
      rw [hq0] at hne
      exact absurd rfl hne
    | cons c cs => rfl
  have hbot := lastBotTextOf_append_user hist (pyStrip msgRaw)
  have hprev := prevUserTextOf_append_user hist (pyStrip msgRaw)
  constructor <;> intro hyes <;>
    simp [chat, hq, hci, chatConfirm, hbot, hprev, h1, h2, h3, hyes, finishChat]

/-- Witness for C7: a session whose last two user turns are bare "yes"
answers after the offerings question; the second gets the selection prompt. -/
theorem C7_witness :
    (chat sampleFaqs
        [⟨Sender.user, str "hi"⟩,
         ⟨Sender.clara, str "We offer things. Would you like to know about our specific cloud solutions?"⟩,
         ⟨Sender.user, str "yes"⟩,
         ⟨Sender.clara, str "Offerings. Would you like to know about our specific cloud solutions?"⟩]
        (str "yes") noFuzzy (Except.error ())).reply = some selectionPrompt :=
  (C7_double_yes sampleFaqs _ (str "yes") noFuzzy (Except.error ())
    sampleOfferings (by decide) (by decide) (by decide)).1 (by decide)

/-- Every terminal branch of the tail of `chat` persists its reply. -/
theorem chatTail_spec (faqs : List Faq) (hist1 : List Msg) (q : List Char)
    (fuzzy : List Char → List Faq → Option Faq) (svc : Except Unit (List Char)) :
    ∃ r b, chatTail faqs hist1 q fuzzy svc =
      ⟨some r, hist1 ++ [⟨Sender.clara, r⟩], b⟩ := by
  cases hk : keywordLookup faqs (toLowerL q) quickKeywordMap with
  | some fm => exact ⟨_, _, by simp only [chatTail, hk]; rfl⟩
  | none =>
    cases hf : fuzzy q faqs with
    | some fm => exact ⟨_, _, by simp only [chatTail, hk, hf]; rfl⟩
    | none => exact ⟨_, _, by simp only [chatTail, hk, hf]; rfl⟩

/-- Every terminal branch of the `service N` selector persists its reply. -/
theorem chatServiceN_spec (faqs : List Faq) (hist1 : List Msg) (q : List Char)
    (fuzzy : List Char → List Faq → Option Faq) (svc : Except Unit (List Char)) :
    ∃ r b, chatServiceN faqs hist1 q fuzzy svc =
      ⟨some r, hist1 ++ [⟨Sender.clara, r⟩], b⟩ := by
  cases hs : startsWithL (str "service") (toLowerL q) with
  | false =>
    have : chatServiceN faqs hist1 q fuzzy svc = chatTail faqs hist1 q fuzzy svc := by
      simp only [chatServiceN, hs]; rfl
    rw [this]; exact chatTail_spec faqs hist1 q fuzzy svc
  | true =>
    cases hp : parseServiceIdx (toLowerL q) with
    | none =>
      have : chatServiceN faqs hist1 q fuzzy svc = chatTail faqs hist1 q fuzzy svc := by
        simp only [chatServiceN, hs, hp]; simp
      rw [this]; exact chatTail_spec faqs hist1 q fuzzy svc
    | some idx =>
      cases ht : serviceTarget idx with
      | none =>
        have : chatServiceN faqs hist1 q fuzzy svc = chatTail faqs hist1 q fuzzy svc := by
          simp only [chatServiceN, hs, hp, ht]; simp
        rw [this]; exact chatTail_spec faqs hist1 q fuzzy svc
      | some target =>
        cases hm : findByQuestion faqs target with
        | none =>
          have : chatServiceN faqs hist1 q fuzzy svc = chatTail faqs hist1 q fuzzy svc := by
            simp only [chatServiceN, hs, hp, ht, hm]; simp
          rw [this]; exact chatTail_spec faqs hist1 q fuzzy svc
        | some fm =>
          exact ⟨_, _, by simp only [chatServiceN, hs, hp, ht, hm]; rfl⟩

/-- Every terminal branch of the confirmation handler persists its reply. -/
theorem chatConfirm_spec (faqs : List Faq) (hist1 : List Msg) (q : List Char)
    (fuzzy : List Char → List Faq → Option Faq) (svc : Except Unit (List Char)) :
    ∃ r b, chatConfirm faqs hist1 q fuzzy svc =
      ⟨some r, hist1 ++ [⟨Sender.clara, r⟩], b⟩ := by
  cases hc : (shortYes.any (fun y => y == toLowerL q) &&
      containsSub (str "would you like to know about our specific cloud")
        (lastBotTextOf hist1)) with
  | false =>
    have : chatConfirm faqs hist1 q fuzzy svc = chatServiceN faqs hist1 q fuzzy svc := by
      simp only [chatConfirm, hc]; rfl
    rw [this]; exact chatServiceN_spec faqs hist1 q fuzzy svc
  | true =>
    cases ho : faqs.find? (fun f =>
        startsWithL (str "what cloud offerings") (toLowerL f.question)) with
    | none =>
      have : chatConfirm faqs hist1 q fuzzy svc = chatServiceN faqs hist1 q fuzzy svc := by
        simp only [chatConfirm, hc, ho]; simp
      rw [this]; exact chatServiceN_spec faqs hist1 q fuzzy svc
    | some off =>
      cases hy : shortYes.any (fun y => y == prevUserTextOf hist1) with
      | true => exact ⟨_, _, by simp only [chatConfirm, hc, ho, hy]; rfl⟩
      | false => exact ⟨_, _, by simp only [chatConfirm, hc, ho, hy]; rfl⟩

/-- C9.  On every `/chat` request with a nonempty (stripped) message — so on
every request that produces a reply, whichever routing branch fires — the
returned reply is persisted as a `sender = "clara"` message appended to the
session right after the saved user message, before the response is
returned: the stored history is exactly the prior history followed by the
user's message and the reply shown to the user. -/
theorem C9_reply_persisted (faqs : List Faq) (hist : List Msg)
    (msgRaw : List Char) (fuzzy : List Char → List Faq → Option Faq)
    (svc : Except Unit (List Char)) (h : pyStrip msgRaw ≠ []) :
    ∃ r b, chat faqs hist msgRaw fuzzy svc =
      ⟨some r,
       hist ++ [⟨Sender.user, pyStrip msgRaw⟩, ⟨Sender.clara, r⟩], b⟩ := by
  have hq : (pyStrip msgRaw).isEmpty = false := by
    cases hq0 : pyStrip msgRaw with
    | nil => exact absurd hq0 h
    | cons c cs => rfl
  have happ : ∀ r : List Char,
      (hist ++ [⟨Sender.user, pyStrip msgRaw⟩]) ++ [⟨Sender.clara, r⟩] =
      hist ++ [⟨Sender.user, pyStrip msgRaw⟩, ⟨Sender.clara, r⟩] := by
    intro r; simp
  unfold chat
  simp only [hq, Bool.false_eq_true, if_false]
  cases hci : cloudIntent (toLowerL (pyStrip msgRaw)) with
  | false =>
    simp only [hci, Bool.false_eq_true, if_false]
    obtain ⟨r, b, hr⟩ := chatConfirm_spec faqs
      (hist ++ [⟨Sender.user, pyStrip msgRaw⟩]) (pyStrip msgRaw) fuzzy svc
    exact ⟨r, b, by rw [hr, happ r]⟩
  | true =>
    simp only [hci, if_true]
    cases hfind : List.find? (fun f =>
        startsWithL (str "what cloud") (toLowerL f.question)) faqs with
    | some off =>
      refine ⟨replace_placeholders_in_reply off.answer faqs, false, ?_⟩
      simp only [hfind, finishChat]
      rw [happ]
    | none =>
      obtain ⟨r, b, hr⟩ := chatConfirm_spec faqs
        (hist ++ [⟨Sender.user, pyStrip msgRaw⟩]) (pyStrip msgRaw) fuzzy svc
      refine ⟨r, b, ?_⟩
      simp only [hfind]
      rw [hr, happ r]

/-- Witness for C9 at a concrete request that falls through to the LLM
branch. -/
theorem C9_witness :
    ∃ r b, chat sampleFaqs [] (str "what is the weather") noFuzzy
        (Except.error ()) =
      ⟨some r, [⟨Sender.user, pyStrip (str "what is the weather")⟩,
        ⟨Sender.clara, r⟩], b⟩ := by
  have h := C9_reply_persisted sampleFaqs [] (str "what is the weather")
    noFuzzy (Except.error ()) (by decide)
  simpa using h

-- ————————————————————————————————————————————————————————————————————————
-- C8: the CSV export
-- ————————————————————————————————————————————————————————————————————————

theorem sessionRows_sessionId (s : CSession) :
    ∀ r ∈ sessionRows s, r.sessionId = s.id := by
  intro r hr
  unfold sessionRows at hr
  by_cases h : s.msgs.isEmpty
  · rw [if_pos h] at hr
    simp only [List.mem_singleton] at hr
    subst hr; rfl
  · rw [if_neg h] at hr
    obtain ⟨m, _, hm⟩ := List.mem_map.mp hr
    subst hm; rfl

theorem export_filter_ne (db : List CSession) (i : Nat)
    (h : ∀ s' ∈ db, s'.id ≠ i) :
    (export_sessions_csv db).filter (fun r => decide (r.sessionId = i)) = [] := by
  induction db with
  | nil => rfl
  | cons t rest ih =>
    have hexp : export_sessions_csv (t :: rest) =
        sessionRows t ++ export_sessions_csv rest := rfl
    rw [hexp, List.filter_append]
    have h1 : (sessionRows t).filter (fun r => decide (r.sessionId = i)) = [] := by
      rw [List.filter_eq_nil_iff]
      intro r hr
      have := sessionRows_sessionId t r hr
      simp only [this, decide_eq_true_eq]
      exact h t (List.mem_cons_self t rest)
    rw [h1, List.nil_append]
    exact ih (fun s' hs' => h s' (List.mem_cons_of_mem t hs'))

/-- C8.  For every database state with distinct session ids and every
session `s` in it, the rows of the `/admin/sessions.csv` body (after the
fixed header) carrying `s`'s id are exactly `s`'s rows: a session with zero
messages yields exactly the one row with empty message fields, and a session
with `N` messages yields exactly `N` rows. -/
theorem C8_csv_rows (db : List CSession) (s : CSession) (hs : s ∈ db)
    (hnd : (db.map (fun t => t.id)).Nodup) :
    (export_sessions_csv db).filter (fun r => decide (r.sessionId = s.id)) =
      sessionRows s ∧
    (s.msgs = [] → sessionRows s = [emptySessionRow s]) ∧
    (s.msgs ≠ [] → (sessionRows s).length = s.msgs.length) := by
  refine ⟨?_, ?_, ?_⟩
  · induction db with
    | nil => cases hs
    | cons t rest ih =>
      have hexp : export_sessions_csv (t :: rest) =
          sessionRows t ++ export_sessions_csv rest := rfl
      rw [hexp, List.filter_append]
      rw [List.map_cons, List.nodup_cons] at hnd
      rcases List.mem_cons.mp hs with heq | hmem
      · subst heq
        have h1 : (sessionRows s).filter (fun r => decide (r.sessionId = s.id)) =
            sessionRows s := by
          rw [List.filter_eq_self]
          intro r hr
          simp [sessionRows_sessionId s r hr]
        have h2 : (export_sessions_csv rest).filter
            (fun r => decide (r.sessionId = s.id)) = [] := by
          refine export_filter_ne rest s.id (fun s' hs' hid => ?_)
          exact hnd.1 (hid ▸ List.mem_map_of_mem (fun t => t.id) hs')
        rw [h1, h2, List.append_nil]
      · have h1 : (sessionRows t).filter (fun r => decide (r.sessionId = s.id)) = [] := by
          rw [List.filter_eq_nil_iff]
          intro r hr
          have hrt := sessionRows_sessionId t r hr
          simp only [hrt, decide_eq_true_eq]
          intro hid
          exact hnd.1 (hid ▸ List.mem_map_of_mem (fun t => t.id) hmem)
        rw [h1, List.nil_append]
        exact ih hmem hnd.2
  · intro h
    simp [sessionRows, h]
  · intro h
    have : s.msgs.isEmpty = false := by
      cases hm : s.msgs with
      | nil => exact absurd hm h
      | cons a l => rfl
    simp [sessionRows, this]

/-- Witness for C8 on `sampleDb`: the empty session yields exactly its one
empty-fields row. -/
theorem C8_witness :
    (export_sessions_csv sampleDb).filter (fun r => decide (r.sessionId = 1)) =
      sessionRows ⟨1, str "guest", str "t0", []⟩ ∧
    sessionRows ⟨1, str "guest", str "t0", []⟩ =
      [emptySessionRow ⟨1, str "guest", str "t0", []⟩] :=
  ⟨(C8_csv_rows sampleDb ⟨1, str "guest", str "t0", []⟩ (by decide) (by decide)).1,
   (C8_csv_rows sampleDb ⟨1, str "guest", str "t0", []⟩ (by decide)
     (by decide)).2.1 rfl⟩

theorem bulletFree_iff (t : List Char) :
    bulletFree t = true ↔ ∀ c ∈ t, isBulletChar c = false := by
  simp [bulletFree, List.all_eq_true]

theorem bulletFree_append (a b : List Char) (ha : bulletFree a = true)
    (hb : bulletFree b = true) : bulletFree (a ++ b) = true := by
  rw [bulletFree_iff] at *
  intro c hc
  rcases List.mem_append.mp hc with h | h
  · exact ha c h
  · exact hb c h

theorem bulletFree_cons (c : Char) (t : List Char) (hc : isBulletChar c = false)
    (ht : bulletFree t = true) : bulletFree (c :: t) = true := by
  rw [bulletFree_iff] at *
  intro d hd
  rcases List.mem_cons.mp hd with h | h
  · exact h ▸ hc
  · exact ht d h

theorem bulletFree_of_sublist {a b : List Char} (h : a.Sublist b)
    (hb : bulletFree b = true) : bulletFree a = true := by
  rw [bulletFree_iff] at *
  exact fun c hc => hb c (h.mem hc)

theorem pyRStrip_sublist (t : List Char) : (pyRStrip t).Sublist t := by
  induction t with
  | nil => exact List.Sublist.refl []
  | cons c cs ih =>
    show (let r := pyRStrip cs;
      if r.isEmpty then (if isWsChar c then [] else [c]) else c :: r).Sublist (c :: cs)
    by_cases hr : (pyRStrip cs).isEmpty
    · simp only [hr, if_true]
      by_cases hw : isWsChar c
      · simp [hw]
      · simp [hw]
    · simp only [hr, if_false]
      exact ih.cons₂ c

theorem pyStrip_sublist (t : List Char) : (pyStrip t).Sublist t :=
  (List.dropWhile_sublist _).trans (pyRStrip_sublist t)

theorem bulletFree_pyStrip (t : List Char) (h : bulletFree t = true) :
    bulletFree (pyStrip t) = true :=
  bulletFree_of_sublist (pyStrip_sublist t) h

theorem bulletFree_bulAux : ∀ (t : List Char) (mode : Bool) (buf : List Char),
    bulletFree buf = true → bulletFree (bulAux mode buf t) = true := by
  intro t
  induction t with
  | nil =>
    intro mode buf hbuf
    cases mode with
    | true => exact rfl
    | false => exact hbuf
  | cons c cs ih =>
    intro mode buf hbuf
    cases mode with
    | true =>
      show bulletFree (if isWsChar c then bulAux true buf cs
        else if isBulletChar c then '\n' :: '-' :: ' ' :: bulAux true buf cs
        else c :: bulAux false [] cs) = true
      by_cases hw : isWsChar c
      · simp only [hw, if_true]; exact ih true buf hbuf
      · simp only [hw, if_false]
        by_cases hb : isBulletChar c
        · simp only [hb, if_true]
          exact bulletFree_cons _ _ (by decide) (bulletFree_cons _ _ (by decide)
            (bulletFree_cons _ _ (by decide) (ih true buf hbuf)))
        · simp only [hb, if_false]
          exact bulletFree_cons _ _ (by simpa using hb) (ih false [] rfl)
    | false =>
      show bulletFree (if isWsChar c then bulAux false (buf ++ [c]) cs
        else if isBulletChar c then '\n' :: '-' :: ' ' :: bulAux true [] cs
        else buf ++ c :: bulAux false [] cs) = true
      by_cases hw : isWsChar c
      · simp only [hw, if_true]
        refine ih false (buf ++ [c]) (bulletFree_append _ _ hbuf ?_)
        have : isBulletChar c = false := by
          cases hbc : isBulletChar c with
          | false => rfl
          | true =>
            rcases (by simpa [isBulletChar] using hbc : c = '*' ∨ c = '•') with h | h <;>
              rw [h] at hw <;> exact absurd hw (by decide)
        exact bulletFree_cons _ _ this rfl
      · simp only [hw, if_false]
        by_cases hb : isBulletChar c
        · simp only [hb, if_true]
          exact bulletFree_cons _ _ (by decide) (bulletFree_cons _ _ (by decide)
            (bulletFree_cons _ _ (by decide) (ih true [] rfl)))
        · simp only [hb, if_false]
          exact bulletFree_append _ _ hbuf
            (bulletFree_cons _ _ (by simpa using hb) (ih false [] rfl))

theorem bulletFree_cons_elim {c : Char} {t : List Char}
    (h : bulletFree (c :: t) = true) :
    isBulletChar c = false ∧ bulletFree t = true := by
  rw [bulletFree_iff] at h
  exact ⟨h c (List.mem_cons_self c t),
    (bulletFree_iff t).mpr fun d hd => h d (List.mem_cons_of_mem c hd)⟩

theorem bulletFree_numAux : ∀ (t : List Char) (sw : Bool) (prev : Option Char)
    (buf : List Char) (ok : Bool), bulletFree buf = true → bulletFree t = true →
    bulletFree (numAux sw prev buf ok t) = true := by
  intro t
  induction t with
  | nil =>
    intro sw prev buf ok hbuf _
    cases sw with
    | true => exact rfl
    | false => exact hbuf
  | cons c cs ih =>
    intro sw prev buf ok hbuf ht
    obtain ⟨hc, hcs⟩ := bulletFree_cons_elim ht
    cases sw with
    | true =>
      show bulletFree (if isWsChar c then numAux true (some c) [] false cs
        else if isDigitChar c then numAux false prev [c] (numBoundaryOk prev) cs
        else c :: numAux false (some c) [] false cs) = true
      by_cases hw : isWsChar c
      · simp only [hw, if_true]; exact ih true (some c) [] false rfl hcs
      · simp only [hw, if_false]
        by_cases hd : isDigitChar c
        · simp only [hd, if_true]
          exact ih false prev [c] _ (bulletFree_cons _ _ hc rfl) hcs
        · simp only [hd, if_false]
          exact bulletFree_cons _ _ hc (ih false (some c) [] false rfl hcs)
    | false =>
      show bulletFree (if isDigitChar c then
          (if buf.isEmpty then numAux false prev [c] (numBoundaryOk prev) cs
           else numAux false prev (buf ++ [c]) ok cs)
        else if c == '.' && !buf.isEmpty && ok then
          '\n' :: (buf ++ '.' :: ' ' :: numAux true (some '.') [] false cs)
        else buf ++ c :: numAux false (some c) [] false cs) = true
      by_cases hd : isDigitChar c
      · simp only [hd, if_true]
        by_cases hbe : buf.isEmpty
        · simp only [hbe, if_true]
          exact ih false prev [c] _ (bulletFree_cons _ _ hc rfl) hcs
        · simp only [hbe, if_false]
          exact ih false prev (buf ++ [c]) ok
            (bulletFree_append _ _ hbuf (bulletFree_cons _ _ hc rfl)) hcs
      · simp only [hd, if_false]
        by_cases hm : (c == '.' && !buf.isEmpty && ok) = true
        · simp only [hm, if_true]
          refine bulletFree_cons _ _ (by decide) (bulletFree_append _ _ hbuf ?_)
          exact bulletFree_cons _ _ (by decide)
            (bulletFree_cons _ _ (by decide) (ih true (some '.') [] false rfl hcs))
        · simp only [hm, if_false]
          exact bulletFree_append _ _ hbuf
            (bulletFree_cons _ _ hc (ih false (some c) [] false rfl hcs))

theorem listMarker_parts {t g2 r2 : List Char}
    (h : listMarker t = some (g2, r2)) : g2 ++ r2 = t := by
  unfold listMarker at h
  split at h
  · split at h
    · obtain ⟨h1, h2⟩ := Prod.mk.injEq .. ▸ Option.some_inj.mp h
      rw [← h1, ← h2]; rfl
    · exact absurd h (by simp)
  · next c cs heqt =>
    split at h
    · next hdig =>
      split at h
      · next w rest heqd =>
        split at h
        · obtain ⟨h1, h2⟩ := Prod.mk.injEq .. ▸ Option.some_inj.mp h
          rw [← h1, ← h2]
          have hta := List.takeWhile_append_dropWhile (p := isDigitChar) (l := c :: cs)
          rw [heqd] at hta
          simpa using hta
        · exact absurd h (by simp)
      · exact absurd h (by simp)
    · exact absurd h (by simp)
  · exact absurd h (by simp)

theorem bulletFree_blankBeforeAux : ∀ (n : Nat) (t : List Char),
    bulletFree t = true → bulletFree (blankBeforeAux n t) = true := by
  intro n t
  induction n, t using blankBeforeAux.induct with
  | case1 n => intro _; rw [blankBeforeAux]; decide
  | case2 t _ =>
    intro ht
    cases t with
    | nil => exact rfl
    | cons x t' => exact ht
  | case3 n c rest hcond g2 rest2 hlm ih =>
    intro ht
    obtain ⟨hc, ht'⟩ := bulletFree_cons_elim ht
    obtain ⟨_, hrest⟩ := bulletFree_cons_elim ht'
    have hsplit : g2 ++ rest2 = rest := listMarker_parts hlm
    have hg : bulletFree (g2 ++ rest2) = true := hsplit ▸ hrest
    have hg2 : bulletFree g2 = true := by
      rw [bulletFree_iff] at hg ⊢
      exact fun d hd => hg d (List.mem_append.mpr (Or.inl hd))
    have hr2 : bulletFree rest2 = true := by
      rw [bulletFree_iff] at hg ⊢
      exact fun d hd => hg d (List.mem_append.mpr (Or.inr hd))
    rw [blankBeforeAux]
    simp only [hcond, if_true, hlm]
    exact bulletFree_cons _ _ hc (bulletFree_cons _ _ (by decide)
      (bulletFree_cons _ _ (by decide) (bulletFree_append _ _ hg2 (ih hr2))))
  | case4 n c rest hcond hlm ih =>
    intro ht
    obtain ⟨hc, ht'⟩ := bulletFree_cons_elim ht
    rw [blankBeforeAux]
    simp only [hcond, if_true, hlm]
    exact bulletFree_cons _ _ hc (ih ht')
  | case5 n c rest hcond ih =>
    intro ht
    obtain ⟨hc, ht'⟩ := bulletFree_cons_elim ht
    rw [blankBeforeAux]
    simp only [if_neg hcond]
    exact bulletFree_cons _ _ hc (ih ht')
  | case6 n c cs hshape ih =>
    intro ht
    obtain ⟨hc, ht'⟩ := bulletFree_cons_elim ht
    rw [blankBeforeAux]
    exact bulletFree_cons _ _ hc (ih ht')
    exact hshape

theorem bulletFree_emitNl (n : Nat) : bulletFree (emitNl n) = true := by
  unfold emitNl
  by_cases h : n ≥ 3
  · simp only [h, if_true]; decide
  · simp only [h, if_false]
    rw [bulletFree_iff]
    intro c hc
    rw [List.eq_of_mem_replicate hc]
    decide

theorem bulletFree_colAux : ∀ (t : List Char) (nl : Nat),
    bulletFree t = true → bulletFree (colAux nl t) = true := by
  intro t
  induction t with
  | nil => intro nl _; exact bulletFree_emitNl nl
  | cons c cs ih =>
    intro nl ht
    obtain ⟨hc, hcs⟩ := bulletFree_cons_elim ht
    rw [colAux]
    by_cases hn : (c == '\n') = true
    · simp only [hn, if_true]; exact ih (nl + 1) hcs
    · simp only [hn, Bool.false_eq_true, if_false]
      exact bulletFree_append _ _ (bulletFree_emitNl nl)
        (bulletFree_cons _ _ hc (ih 0 hcs))

theorem slAux_mem : ∀ (t acc : List Char) (sawCR : Bool), ∀ l ∈ slAux acc sawCR t,
    ∀ c ∈ l, c ∈ acc ∨ c ∈ t := by
  intro t
  induction t with
  | nil =>
    intro acc sawCR l hl c hc
    rw [slAux] at hl
    split at hl
    · cases hl
    · rcases List.mem_singleton.mp hl with rfl
      exact Or.inl (List.mem_reverse.mp hc)
  | cons c0 cs ih =>
    intro acc sawCR l hl c hc
    rw [slAux] at hl
    split at hl
    · rcases ih acc false l hl c hc with h | h
      · exact Or.inl h
      · exact Or.inr (List.mem_cons_of_mem c0 h)
    · split at hl
      · rcases List.mem_cons.mp hl with rfl | h
        · exact Or.inl (List.mem_reverse.mp hc)
        · rcases ih [] true l h c hc with h2 | h2
          · cases h2
          · exact Or.inr (List.mem_cons_of_mem c0 h2)
      · split at hl
        · rcases List.mem_cons.mp hl with rfl | h
          · exact Or.inl (List.mem_reverse.mp hc)
          · rcases ih [] false l h c hc with h2 | h2
            · cases h2
            · exact Or.inr (List.mem_cons_of_mem c0 h2)
        · rcases ih (c0 :: acc) false l hl c hc with h | h
          · rcases List.mem_cons.mp h with rfl | h2
            · exact Or.inr (List.mem_cons_self c cs)
            · exact Or.inl h2
          · exact Or.inr (List.mem_cons_of_mem c0 h)

theorem bulletFree_intercalate : ∀ (L : List (List Char)),
    (∀ l ∈ L, bulletFree l = true) →
    bulletFree (List.intercalate ['\n'] L) = true := by
  intro L
  induction L with
  | nil => intro _; decide
  | cons l L ih =>
    intro h
    cases L with
    | nil =>
      simpa [List.intercalate] using h l (List.mem_singleton.mpr rfl)
    | cons l2 L2 =>
      have hic : List.intercalate ['\n'] (l :: l2 :: L2) =
          l ++ ['\n'] ++ List.intercalate ['\n'] (l2 :: L2) := by
        simp [List.intercalate, List.intersperse]
      rw [hic]
      refine bulletFree_append _ _ (bulletFree_append _ _
        (h l (List.mem_cons_self _ _)) (by decide)) ?_
      exact ih fun l' hl' => h l' (List.mem_cons_of_mem _ hl')

theorem bulletFree_joinStrippedLines (r : List Char)
    (h : bulletFree r = true) : bulletFree (joinStrippedLines r) = true := by
  unfold joinStrippedLines
  refine bulletFree_intercalate _ ?_
  intro l hl
  obtain ⟨hlf, _⟩ := List.mem_filter.mp hl
  obtain ⟨l0, hl0, rfl⟩ := List.mem_map.mp hlf
  refine bulletFree_pyStrip l0 ((bulletFree_iff l0).mpr fun c hc => ?_)
  rcases slAux_mem r [] false l0 hl0 c hc with h2 | h2
  · cases h2
  · exact (bulletFree_iff r).mp h c h2

theorem bulletFree_dashAux : ∀ (prev : Option Char) (t : List Char),
    bulletFree t = true → bulletFree (dashAux prev t) = true := by
  intro prev t
  induction prev, t using dashAux.induct with
  | case1 prev a b c rest hcond ih =>
    intro ht
    have hrest : bulletFree rest = true :=
      (bulletFree_cons_elim (bulletFree_cons_elim (bulletFree_cons_elim ht).2).2).2
    rw [dashAux]
    simp only [hcond, if_true]
    exact bulletFree_cons _ _ (by decide) (bulletFree_cons _ _ (by decide)
      (bulletFree_cons _ _ (by decide) (ih hrest)))
  | case2 prev a b c rest hcond ih =>
    intro ht
    obtain ⟨ha, ht'⟩ := bulletFree_cons_elim ht
    rw [dashAux]
    simp only [hcond, if_false]
    exact bulletFree_cons _ _ ha (ih ht')
  | case3 prev t hshape =>
    intro ht
    match t, hshape with
    | [], _ => exact ht
    | [a], _ => exact ht
    | [a, b], _ => exact ht
    | a :: b :: c :: rest, hshape => exact absurd rfl (hshape a b c rest)

theorem hasNN_cons_cons (a b : Char) (r : List Char) :
    hasNN (a :: b :: r) = ((a == '\n' && b == '\n') || hasNN (b :: r)) := rfl

theorem hasNN_tail : ∀ {x : Char} {xs : List Char},
    hasNN (x :: xs) = false → hasNN xs = false := by
  intro x xs h
  cases xs with
  | nil => rfl
  | cons b r =>
    rw [hasNN_cons_cons] at h
    exact (Bool.or_eq_false_iff.mp h).2

theorem hasNN_cons_false {x : Char} {l : List Char}
    (hhead : ∀ y, l.head? = some y → (x == '\n' && y == '\n') = false)
    (hl : hasNN l = false) : hasNN (x :: l) = false := by
  cases l with
  | nil => rfl
  | cons b r =>
    rw [hasNN_cons_cons]
    rw [Bool.or_eq_false_iff]
    exact ⟨hhead b rfl, hl⟩

theorem hasNN_no_nl : ∀ {t : List Char}, '\n' ∉ t → hasNN t = false := by
  intro t
  induction t with
  | nil => intro _; rfl
  | cons x xs ih =>
    intro h
    refine hasNN_cons_false (fun y hy => ?_) (ih fun hm => h (List.mem_cons_of_mem x hm))
    have : x ≠ '\n' := fun hx => h (hx ▸ List.mem_cons_self x xs)
    simp [this]

theorem hasNN_sep : ∀ (l : List Char), '\n' ∉ l → l ≠ [] →
    ∀ (rest : List Char), (∀ y, rest.head? = some y → y ≠ '\n') →
    hasNN rest = false → hasNN (l ++ '\n' :: rest) = false := by
  intro l
  induction l with
  | nil => intro _ hne; exact absurd rfl hne
  | cons x l' ih =>
    intro hl _ rest hrh hrest
    have hx : x ≠ '\n' := fun hx => hl (hx ▸ List.mem_cons_self x l')
    cases l' with
    | nil =>
      refine hasNN_cons_false (fun y hy => by simp_all) ?_
      refine hasNN_cons_false (fun y hy => ?_) hrest
      have := hrh y hy
      simp [this]
    | cons b l'' =>
      show hasNN (x :: ((b :: l'') ++ '\n' :: rest)) = false
      refine hasNN_cons_false (fun y hy => ?_) ?_
      · have : b = y := by simpa using hy
        simp [hx, ← this]
      · exact ih (fun hm => hl (List.mem_cons_of_mem x hm)) (by simp) rest hrh hrest

theorem intercalate_head : ∀ (l2 : List Char) (L2 : List (List Char)),
    l2 ≠ [] → (List.intercalate ['\n'] (l2 :: L2)).head? = l2.head? := by
  intro l2 L2 hne
  cases L2 with
  | nil =>
    simp [List.intercalate]
  | cons l3 L3 =>
    have hic : List.intercalate ['\n'] (l2 :: l3 :: L3) =
        l2 ++ ['\n'] ++ List.intercalate ['\n'] (l3 :: L3) := by
      simp [List.intercalate, List.intersperse]
    rw [hic]
    cases l2 with
    | nil => exact absurd rfl hne
    | cons a l2' => rfl

theorem hasNN_intercalate : ∀ (L : List (List Char)),
    (∀ l ∈ L, l ≠ [] ∧ '\n' ∉ l) →
    hasNN (List.intercalate ['\n'] L) = false := by
  intro L
  induction L with
  | nil => intro _; rfl
  | cons l L' ih =>
    intro h
    obtain ⟨hlne, hlnn⟩ := h l (List.mem_cons_self _ _)
    cases L' with
    | nil =>
      have : List.intercalate ['\n'] [l] = l := by simp [List.intercalate]
      rw [this]
      exact hasNN_no_nl hlnn
    | cons l2 L2 =>
      have hic : List.intercalate ['\n'] (l :: l2 :: L2) =
          l ++ '\n' :: List.intercalate ['\n'] (l2 :: L2) := by
        simp [List.intercalate, List.intersperse]
      rw [hic]
      obtain ⟨hl2ne, hl2nn⟩ := h l2 (List.mem_cons_of_mem _ (List.mem_cons_self _ _))
      refine hasNN_sep l hlnn hlne _ (fun y hy => ?_) ?_
      · rw [intercalate_head l2 L2 hl2ne] at hy
        intro hyn
        subst hyn
        exact hl2nn (List.mem_of_mem_head? hy)
      · exact ih fun l' hl' => h l' (List.mem_cons_of_mem _ hl')

theorem slAux_no_break : ∀ (t acc : List Char) (sawCR : Bool),
    (∀ c ∈ acc, isLineBreakChar c = false) →
    ∀ l ∈ slAux acc sawCR t, ∀ c ∈ l, isLineBreakChar c = false := by
  intro t
  induction t with
  | nil =>
    intro acc sawCR hacc l hl c hc
    rw [slAux] at hl
    split at hl
    · cases hl
    · rcases List.mem_singleton.mp hl with rfl
      exact hacc c (List.mem_reverse.mp hc)
  | cons c0 cs ih =>
    intro acc sawCR hacc l hl c hc
    rw [slAux] at hl
    split at hl
    · exact ih acc false hacc l hl c hc
    · next hcr0 =>
      split at hl
      · rcases List.mem_cons.mp hl with rfl | h
        · exact hacc c (List.mem_reverse.mp hc)
        · exact ih [] true (by simp) l h c hc
      · split at hl
        · rcases List.mem_cons.mp hl with rfl | h
          · exact hacc c (List.mem_reverse.mp hc)
          · exact ih [] false (by simp) l h c hc
        · next hbr =>
          refine ih (c0 :: acc) false (fun d hd => ?_) l hl c hc
          rcases List.mem_cons.mp hd with rfl | h2
          · simpa using hbr
          · exact hacc d h2

theorem hasNN_joinStrippedLines (r : List Char) :
    hasNN (joinStrippedLines r) = false := by
  unfold joinStrippedLines
  refine hasNN_intercalate _ ?_
  intro l hl
  obtain ⟨hlf, hlne⟩ := List.mem_filter.mp hl
  obtain ⟨l0, hl0, rfl⟩ := List.mem_map.mp hlf
  constructor
  · simpa using hlne
  · intro hm
    have := slAux_no_break r [] false (by simp) l0 hl0 '\n'
      ((pyStrip_sublist l0).mem hm)
    exact absurd this (by decide)

theorem pyRStrip_head : ∀ (c : Char) (cs : List Char),
    pyRStrip (c :: cs) ≠ [] → (pyRStrip (c :: cs)).head? = some c := by
  intro c cs hne
  show (let r := pyRStrip cs;
    if r.isEmpty then (if isWsChar c then [] else [c]) else c :: r).head? = some c
  by_cases hr : (pyRStrip cs).isEmpty
  · simp only [hr, if_true]
    by_cases hw : isWsChar c
    · exact absurd (by simp only [pyRStrip, hr, if_true, hw]) hne
    · simp [hw]
  · simp [hr]

theorem hasNN_pyRStrip : ∀ {s : List Char}, hasNN s = false →
    hasNN (pyRStrip s) = false := by
  intro s
  induction s with
  | nil => intro _; rfl
  | cons c cs ih =>
    intro h
    show hasNN (let r := pyRStrip cs;
      if r.isEmpty then (if isWsChar c then [] else [c]) else c :: r) = false
    by_cases hr : (pyRStrip cs).isEmpty
    · simp only [hr, if_true]
      by_cases hw : isWsChar c
      · simp [hw]; rfl
      · simp [hw]; rfl
    · simp only [hr, if_false]
      refine hasNN_cons_false (fun y hy => ?_) (ih (hasNN_tail h))
      cases cs with
      | nil => exact absurd rfl hr
      | cons d ds =>
        rw [pyRStrip_head d ds (by simpa using hr)] at hy
        have hyd : d = y := by simpa using hy
        rw [hasNN_cons_cons] at h
        rw [← hyd]
        exact (Bool.or_eq_false_iff.mp h).1

theorem pyRStrip_last_not_ws : ∀ (s : List Char) (c : Char),
    (pyRStrip s).getLast? = some c → isWsChar c = false := by
  intro s
  induction s with
  | nil => intro c hc; cases hc
  | cons x xs ih =>
    intro c hc
    have hdef : pyRStrip (x :: xs) = (if (pyRStrip xs).isEmpty then
        (if isWsChar x then [] else [x]) else x :: pyRStrip xs) := rfl
    rw [hdef] at hc
    by_cases hr : (pyRStrip xs).isEmpty
    · rw [if_pos hr] at hc
      by_cases hw : isWsChar x
      · rw [if_pos hw] at hc; cases hc
      · rw [if_neg hw] at hc
        have hxc : x = c := by simpa using hc
        cases hxc
        simpa using hw
    · rw [if_neg hr] at hc
      cases hpr : pyRStrip xs with
      | nil => exact absurd rfl (hpr ▸ hr)
      | cons y ys =>
        rw [hpr, List.getLast?_cons_cons, ← hpr] at hc
        exact ih c hc

theorem hasNN_dashAux : ∀ (prev : Option Char) (t : List Char),
    hasNN t = false →
    (∀ y, prev = some '\n' → t.head? = some y → y ≠ '\n') →
    hasNN (dashAux prev t) = false ∧
    (∀ y, prev = some '\n' → (dashAux prev t).head? = some y → y ≠ '\n') := by
  intro prev t
  induction prev, t using dashAux.induct with
  | case1 prev a b c rest hcond ih =>
    intro ht hph
    have hprev : ¬(prev == some '\n') = true := by
      intro h
      simp only [h, Bool.not_true, Bool.false_and] at hcond
      cases hcond
    have hrest : hasNN rest = false := hasNN_tail (hasNN_tail (hasNN_tail ht))
    have hch : ∀ y, some c = some '\n' → rest.head? = some y → y ≠ '\n' := by
      intro y hcn hy hyn
      have hcn' : c = '\n' := by simpa using hcn
      have h3 : hasNN (c :: rest) = false := hasNN_tail (hasNN_tail ht)
      cases rest with
      | nil => cases hy
      | cons z zs =>
        have hz : z = y := by simpa using hy
        rw [hasNN_cons_cons] at h3
        have := (Bool.or_eq_false_iff.mp h3).1
        rw [hcn', hz, hyn] at this
        simp at this
    obtain ⟨ih1, ih2⟩ := ih hrest hch
    rw [dashAux]
    simp only [hcond, if_true]
    constructor
    · refine hasNN_cons_false (fun y hy => ?_)
        (hasNN_cons_false (fun y hy => ?_)
          (hasNN_cons_false (fun y hy => ?_) ih1))
      · have h2 : ('-' : Char) = y := by simpa using hy
        cases h2; decide
      · have h2 : (' ' : Char) = y := by simpa using hy
        cases h2; decide
      · have e3 : ((' ' : Char) == '\n') = false := by decide
        rw [e3, Bool.false_and]
    · intro y hpn
      rw [hpn] at hprev
      simp at hprev
  | case2 prev a b c rest hcond ih =>
    intro ht hph
    have habn : (a == '\n' && b == '\n') = false := by
      rw [hasNN_cons_cons] at ht
      exact (Bool.or_eq_false_iff.mp ht).1
    have hih := ih (hasNN_tail ht) (by
      intro y han hy hyn
      have ha : a = '\n' := by simpa using han
      have hb : b = y := by simpa using hy
      rw [ha, hb, hyn] at habn
      simp at habn)
    rw [dashAux]
    simp only [hcond, if_false]
    constructor
    · refine hasNN_cons_false (fun y hy => ?_) hih.1
      by_cases han : a = '\n'
      · have := hih.2 y (by rw [han]) hy
        simp [this]
      · simp [han]
    · intro y hpn hy
      have hay : a = y := by simpa using hy
      exact fun hyn => hph y hpn (by simp [hay]) hyn
  | case3 prev t hshape =>
    intro ht hph
    have : dashAux prev t = t := by
      match t, hshape with
      | [], _ => rfl
      | [a], _ => rfl
      | [a, b], _ => rfl
      | a :: b :: c :: rest, hshape => exact absurd rfl (hshape a b c rest)
    rw [this]
    exact ⟨ht, hph⟩

theorem has3N_cons3 (a b c : Char) (r : List Char) :
    has3N (a :: b :: c :: r) =
      ((a == '\n' && (b == '\n' && c == '\n')) || has3N (b :: c :: r)) := by
  rw [show has3N (a :: b :: c :: r) =
    ((a == '\n' && b == '\n' && c == '\n') || has3N (b :: c :: r)) from rfl]
  rw [Bool.and_assoc]

theorem hasNN_imp_has3N : ∀ {t : List Char}, hasNN t = false → has3N t = false := by
  intro t
  induction t with
  | nil => intro _; rfl
  | cons a t' ih =>
    intro h
    cases t' with
    | nil => rfl
    | cons b t'' =>
      cases t'' with
      | nil => rfl
      | cons c r =>
        rw [has3N_cons3, Bool.or_eq_false_iff]
        refine ⟨?_, ih (hasNN_tail h)⟩
        have hab : (a == '\n' && b == '\n') = false := by
          rw [hasNN_cons_cons] at h
          exact (Bool.or_eq_false_iff.mp h).1
        cases ha : (a == '\n') with
        | false => rw [Bool.false_and]
        | true =>
          rw [ha, Bool.true_and] at hab
          rw [Bool.true_and, hab, Bool.false_and]

theorem has3N_no_nl {t : List Char} (h : '\n' ∉ t) : has3N t = false :=
  hasNN_imp_has3N (hasNN_no_nl h)

theorem has3N_cons_no_nl (x : Char) (t : List Char) (h : '\n' ∉ t) :
    has3N (x :: t) = false := by
  cases t with
  | nil => rfl
  | cons b t' =>
    cases t' with
    | nil => rfl
    | cons c r =>
      rw [has3N_cons3, Bool.or_eq_false_iff]
      have hb : (b == '\n') = false := by
        have : b ≠ '\n' := fun hb => h (hb ▸ List.mem_cons_self b _)
        simp [this]
      refine ⟨?_, has3N_no_nl h⟩
      rw [hb, Bool.false_and, Bool.and_false]

theorem has3N_nn_w (w : List Char) (h : '\n' ∉ w) :
    has3N ('\n' :: '\n' :: w) = false := by
  cases w with
  | nil => rfl
  | cons d w' =>
    rw [has3N_cons3, Bool.or_eq_false_iff]
    have hd : (d == '\n') = false := by
      have : d ≠ '\n' := fun hd => h (hd ▸ List.mem_cons_self d _)
      simp [this]
    refine ⟨?_, has3N_cons_no_nl '\n' (d :: w') h⟩
    rw [hd, Bool.and_false, Bool.and_false]

theorem has3N_append_sep : ∀ (x w : List Char), hasNN x = false →
    (∀ c, x.getLast? = some c → c ≠ '\n') → '\n' ∉ w →
    has3N (x ++ '\n' :: '\n' :: w) = false := by
  intro x
  induction x with
  | nil => intro w _ _ hw; exact has3N_nn_w w hw
  | cons a x' ih =>
    intro w hx hlast hw
    cases x' with
    | nil =>
      have ha : a ≠ '\n' := hlast a rfl
      show has3N (a :: '\n' :: '\n' :: w) = false
      rw [has3N_cons3, Bool.or_eq_false_iff]
      refine ⟨?_, has3N_nn_w w hw⟩
      have : (a == '\n') = false := by simp [ha]
      rw [this, Bool.false_and]
    | cons b x'' =>
      show has3N (a :: b :: (x'' ++ '\n' :: '\n' :: w)) = false
      cases hxx : x'' ++ '\n' :: '\n' :: w with
      | nil => exact absurd hxx (by simp)
      | cons c3 r3 =>
        rw [has3N_cons3, Bool.or_eq_false_iff]
        constructor
        · have hab : (a == '\n' && b == '\n') = false := by
            rw [hasNN_cons_cons] at hx
            exact (Bool.or_eq_false_iff.mp hx).1
          cases ha : (a == '\n') with
          | false => rw [Bool.false_and]
          | true =>
            rw [ha, Bool.true_and] at hab
            rw [Bool.true_and, hab, Bool.false_and]
        · rw [← hxx]
          exact ih w (hasNN_tail hx)
            (fun c hc => hlast c (by rwa [List.getLast?_cons_cons])) hw

/-- C5.  For every raw completion text, the output of `postprocess_reply`
contains no three consecutive newline characters (no two consecutive blank
lines) and no bullet glyph (`*` or U+2022). -/
theorem C5_formatter_clean (raw : List Char) :
    has3N (postprocess_reply raw) = false ∧
    bulletFree (postprocess_reply raw) = true := by
  cases raw with
  | nil => exact ⟨rfl, rfl⟩
  | cons c0 rest0 =>
    have hnn9 : hasNN (preFollowUp (c0 :: rest0)) = false := by
      unfold preFollowUp dashSub
      exact (hasNN_dashAux none _ (hasNN_joinStrippedLines _)
        (fun y h => by cases h)).1
    have hbf9 : bulletFree (preFollowUp (c0 :: rest0)) = true := by
      unfold preFollowUp dashSub bulletSub numberedSub blankBeforeList collapseNl
      refine bulletFree_dashAux none _ (bulletFree_joinStrippedLines _
        (bulletFree_colAux _ 0 (bulletFree_blankBeforeAux _ _
          (bulletFree_numAux _ false none [] false rfl
            (bulletFree_bulAux _ false [] rfl)))))
    unfold postprocess_reply
    simp only [List.isEmpty_cons, Bool.false_eq_true, if_false]
    rw [maybeFollowUp]
    by_cases hfu : wantsFollowUp (preFollowUp (c0 :: rest0)) = true
    · rw [if_pos hfu]
      constructor
      · have hsplit : followUpText = '\n' :: '\n' ::
            str "Would you like instructions to set this up or should I escalate this?" := rfl
        rw [hsplit]
        refine has3N_append_sep _ _ (hasNN_pyRStrip hnn9) ?_ (by decide)
        intro c hc hcn
        subst hcn
        exact absurd (pyRStrip_last_not_ws _ '\n' hc) (by decide)
      · exact bulletFree_append _ _
          (bulletFree_of_sublist (pyRStrip_sublist _) hbf9) (by decide)
    · rw [if_neg hfu]
      exact ⟨hasNN_imp_has3N hnn9, hbf9⟩

theorem bnot_true {b : Bool} (h : (!b) = true) : b = false := by
  cases b
  · rfl
  · cases h

theorem term_not_ws {c : Char} (h : isTermChar c = true) : isWsChar c = false := by
  rcases (by simpa [isTermChar] using h : (c = '.' ∨ c = '!') ∨ c = '?') with (h | h) | h <;>
    rw [h] <;> decide

theorem ws_not_term {c : Char} (h : isWsChar c = true) : isTermChar c = false := by
  cases ht : isTermChar c with
  | false => rfl
  | true => rw [term_not_ws ht] at h; cases h

theorem noSplitB_tail : ∀ {x : Char} {l : List Char},
    noSplitB (x :: l) = true → noSplitB l = true := by
  intro x l h
  cases l with
  | nil => rfl
  | cons b r =>
    rw [show noSplitB (x :: b :: r) =
      (!(isTermChar x && isWsChar b) && noSplitB (b :: r)) from rfl] at h
    exact (Bool.and_eq_true_iff.mp h).2

theorem noSplitRevB_tail : ∀ {x : Char} {l : List Char},
    noSplitRevB (x :: l) = true → noSplitRevB l = true := by
  intro x l h
  cases l with
  | nil => rfl
  | cons a r =>
    rw [show noSplitRevB (x :: a :: r) =
      (!(isTermChar a && isWsChar x) && noSplitRevB (a :: r)) from rfl] at h
    exact (Bool.and_eq_true_iff.mp h).2

theorem noSplitRevB_append_right : ∀ {u v : List Char},
    noSplitRevB (u ++ v) = true → noSplitRevB v = true := by
  intro u
  induction u with
  | nil => intro v h; exact h
  | cons a u' ih => intro v h; exact ih (noSplitRevB_tail h)

theorem noSplitB_cons_pair : ∀ {a b : Char} {r : List Char},
    noSplitB (a :: b :: r) = true → (isTermChar a && isWsChar b) = false := by
  intro a b r h
  rw [show noSplitB (a :: b :: r) =
    (!(isTermChar a && isWsChar b) && noSplitB (b :: r)) from rfl] at h
  exact bnot_true (Bool.and_eq_true_iff.mp h).1

theorem noSplitRevB_cons_pair : ∀ {b a : Char} {r : List Char},
    noSplitRevB (b :: a :: r) = true → (isTermChar a && isWsChar b) = false := by
  intro b a r h
  rw [show noSplitRevB (b :: a :: r) =
    (!(isTermChar a && isWsChar b) && noSplitRevB (a :: r)) from rfl] at h
  exact bnot_true (Bool.and_eq_true_iff.mp h).1

theorem noSplitB_cons {a : Char} {l : List Char}
    (hp : ∀ y, l.head? = some y → (isTermChar a && isWsChar y) = false)
    (hl : noSplitB l = true) : noSplitB (a :: l) = true := by
  cases l with
  | nil => rfl
  | cons b r =>
    rw [show noSplitB (a :: b :: r) =
      (!(isTermChar a && isWsChar b) && noSplitB (b :: r)) from rfl]
    rw [hp b rfl, hl]
    rfl

theorem noSplitB_snoc : ∀ (u : List Char) (x : Char),
    noSplitB u = true →
    (∀ z, u.getLast? = some z → (isTermChar z && isWsChar x) = false) →
    noSplitB (u ++ [x]) = true := by
  intro u
  induction u with
  | nil => intro x _ _; rfl
  | cons a u' ih =>
    intro x hu hlast
    cases u' with
    | nil =>
      show noSplitB [a, x] = true
      rw [show noSplitB [a, x] =
        (!(isTermChar a && isWsChar x) && noSplitB [x]) from rfl]
      rw [hlast a rfl]
      rfl
    | cons b u'' =>
      show noSplitB (a :: b :: (u'' ++ [x])) = true
      rw [show noSplitB (a :: b :: (u'' ++ [x])) =
        (!(isTermChar a && isWsChar b) && noSplitB (b :: (u'' ++ [x]))) from rfl]
      rw [noSplitB_cons_pair hu]
      have hr : noSplitB ((b :: u'') ++ [x]) = true :=
        ih x (noSplitB_tail hu) (fun z hz => hlast z (by rwa [List.getLast?_cons_cons]))
      rw [show ((b :: u'') ++ [x] : List Char) = b :: (u'' ++ [x]) from rfl] at hr
      rw [hr]
      rfl

theorem noSplitRevB_snoc : ∀ (u : List Char) (x : Char),
    noSplitRevB u = true →
    (∀ y, u.getLast? = some y → (isTermChar x && isWsChar y) = false) →
    noSplitRevB (u ++ [x]) = true := by
  intro u
  induction u with
  | nil => intro x _ _; rfl
  | cons a u' ih =>
    intro x hu hlast
    cases u' with
    | nil =>
      show noSplitRevB [a, x] = true
      rw [show noSplitRevB [a, x] =
        (!(isTermChar x && isWsChar a) && noSplitRevB [x]) from rfl]
      rw [hlast a rfl]
      rfl
    | cons b u'' =>
      show noSplitRevB (a :: b :: (u'' ++ [x])) = true
      rw [show noSplitRevB (a :: b :: (u'' ++ [x])) =
        (!(isTermChar b && isWsChar a) && noSplitRevB (b :: (u'' ++ [x]))) from rfl]
      rw [noSplitRevB_cons_pair hu]
      have hr : noSplitRevB ((b :: u'') ++ [x]) = true :=
        ih x (noSplitRevB_tail hu) (fun y hy => hlast y (by rwa [List.getLast?_cons_cons]))
      rw [show ((b :: u'') ++ [x] : List Char) = b :: (u'' ++ [x]) from rfl] at hr
      rw [hr]
      rfl

theorem noSplitB_to_rev : ∀ (p : List Char),
    noSplitB p = true → noSplitRevB p.reverse = true := by
  intro p
  induction p with
  | nil => intro _; rfl
  | cons x p' ih =>
    intro h
    rw [List.reverse_cons]
    refine noSplitRevB_snoc _ x (ih (noSplitB_tail h)) (fun y hy => ?_)
    rw [List.getLast?_reverse] at hy
    cases p' with
    | nil => cases hy
    | cons b r =>
      have hb : b = y := by simpa using hy
      rw [← hb]
      exact noSplitB_cons_pair h

theorem noSplitRevB_to_noSplitB : ∀ (acc : List Char),
    noSplitRevB acc = true → noSplitB acc.reverse = true := by
  intro acc
  induction acc with
  | nil => intro _; rfl
  | cons y acc' ih =>
    intro h
    rw [List.reverse_cons]
    refine noSplitB_snoc _ y (ih (noSplitRevB_tail h)) (fun z hz => ?_)
    rw [List.getLast?_reverse] at hz
    cases acc' with
    | nil => cases hz
    | cons a r =>
      have ha : a = z := by simpa using hz
      rw [← ha]
      exact noSplitRevB_cons_pair h

theorem dropWhile_head_not : ∀ (l : List Char) (y : Char),
    (List.dropWhile isWsChar l).head? = some y → isWsChar y = false := by
  intro l
  induction l with
  | nil => intro y hy; cases hy
  | cons a l' ih =>
    intro y hy
    by_cases ha : isWsChar a
    · rw [List.dropWhile_cons_of_pos ha] at hy
      exact ih y hy
    · rw [List.dropWhile_cons_of_neg ha] at hy
      have : a = y := by simpa using hy
      rw [← this]
      simpa using ha

theorem dropWhile_eq_self_of_head : ∀ (l : List Char),
    (∀ y, l.head? = some y → isWsChar y = false) →
    List.dropWhile isWsChar l = l := by
  intro l h
  cases l with
  | nil => rfl
  | cons a l' =>
    have := h a rfl
    rw [List.dropWhile_cons_of_neg (by simp [this])]

theorem getLast?_dropWhile : ∀ (l : List Char),
    List.dropWhile isWsChar l ≠ [] →
    (List.dropWhile isWsChar l).getLast? = l.getLast? := by
  intro l
  induction l with
  | nil => intro h; exact absurd rfl h
  | cons a l' ih =>
    intro h
    by_cases ha : isWsChar a
    · rw [List.dropWhile_cons_of_pos ha] at h ⊢
      rw [ih h]
      cases l' with
      | nil => rw [List.dropWhile_nil] at h; exact absurd rfl h
      | cons b l'' => rw [List.getLast?_cons_cons]
    · rw [List.dropWhile_cons_of_neg ha]

theorem pyRStrip_eq_self_of_last : ∀ (l : List Char),
    (∀ c, l.getLast? = some c → isWsChar c = false) → pyRStrip l = l := by
  intro l
  induction l with
  | nil => intro _; rfl
  | cons x xs ih =>
    intro h
    have hdef : pyRStrip (x :: xs) = (if (pyRStrip xs).isEmpty then
        (if isWsChar x then [] else [x]) else x :: pyRStrip xs) := rfl
    rw [hdef]
    cases xs with
    | nil =>
      have hx := h x rfl
      simp [pyRStrip, hx]
    | cons b xs' =>
      have hxs : pyRStrip (b :: xs') = b :: xs' := by
        refine ih (fun c hc => h c ?_)
        rwa [List.getLast?_cons_cons]
      rw [hxs]
      rfl

theorem pyStrip_head_not_ws (s : List Char) :
    ∀ y, (pyStrip s).head? = some y → isWsChar y = false :=
  fun y hy => dropWhile_head_not (pyRStrip s) y hy

theorem pyStrip_last_not_ws (s : List Char) :
    ∀ c, (pyStrip s).getLast? = some c → isWsChar c = false := by
  intro c hc
  have hne : pyStrip s ≠ [] := by
    intro h
    rw [h] at hc
    cases hc
  unfold pyStrip pyLStrip at hc hne
  rw [getLast?_dropWhile (pyRStrip s) hne] at hc
  exact pyRStrip_last_not_ws s c hc

theorem pyStrip_eq_self_of (l : List Char)
    (hh : ∀ y, l.head? = some y → isWsChar y = false)
    (hl : ∀ c, l.getLast? = some c → isWsChar c = false) : pyStrip l = l := by
  unfold pyStrip pyLStrip
  rw [pyRStrip_eq_self_of_last l hl]
  exact dropWhile_eq_self_of_head l hh

theorem pyStrip_idem (s : List Char) : pyStrip (pyStrip s) = pyStrip s :=
  pyStrip_eq_self_of _ (pyStrip_head_not_ws s) (pyStrip_last_not_ws s)

theorem pyRStrip_decomp : ∀ (s : List Char),
    ∃ u, s = pyRStrip s ++ u ∧ allWs u = true := by
  intro s
  induction s with
  | nil => exact ⟨[], rfl, rfl⟩
  | cons c cs ih =>
    obtain ⟨u, hcs, hu⟩ := ih
    have hdef : pyRStrip (c :: cs) = (if (pyRStrip cs).isEmpty then
        (if isWsChar c then [] else [c]) else c :: pyRStrip cs) := rfl
    by_cases hr : (pyRStrip cs).isEmpty
    · have hcs' : cs = u := by
        rw [hcs, List.isEmpty_iff.mp hr, List.nil_append]
      by_cases hw : isWsChar c
      · refine ⟨c :: cs, ?_, ?_⟩
        · rw [hdef, if_pos hr, if_pos hw, List.nil_append]
        · rw [allWs, List.all_cons, hw, hcs']
          simpa [allWs] using hu
      · refine ⟨cs, ?_, by rw [hcs']; exact hu⟩
        rw [hdef, if_pos hr, if_neg hw]
        rfl
    · refine ⟨u, ?_, hu⟩
      rw [hdef, if_neg hr]
      rw [List.cons_append, ← hcs]

theorem allWs_append_elim {a b : List Char} (h : allWs (a ++ b) = true) :
    allWs a = true ∧ allWs b = true := by
  unfold allWs at *
  rw [List.all_append] at h
  exact Bool.and_eq_true_iff.mp h

theorem pyStrip_eq_nil_iff (p : List Char) : pyStrip p = [] ↔ allWs p = true := by
  constructor
  · intro h
    obtain ⟨u, hdec, hu⟩ := pyRStrip_decomp p
    have hr : allWs (pyRStrip p) = true := by
      unfold pyStrip pyLStrip at h
      rw [List.dropWhile_eq_nil_iff] at h
      unfold allWs
      rw [List.all_eq_true]
      exact h
    rw [hdec]
    unfold allWs at *
    rw [List.all_append, hr, hu]
    rfl
  · intro h
    have hr : allWs (pyRStrip p) = true := by
      obtain ⟨u, hdec, _⟩ := pyRStrip_decomp p
      rw [hdec] at h
      exact (allWs_append_elim h).1
    unfold pyStrip pyLStrip
    rw [List.dropWhile_eq_nil_iff]
    unfold allWs at hr
    rw [List.all_eq_true] at hr
    exact hr

theorem noSplitB_dropWhile : ∀ (l : List Char),
    noSplitB l = true → noSplitB (List.dropWhile isWsChar l) = true := by
  intro l
  induction l with
  | nil => intro _; rfl
  | cons a l' ih =>
    intro h
    by_cases ha : isWsChar a
    · rw [List.dropWhile_cons_of_pos ha]
      exact ih (noSplitB_tail h)
    · rw [List.dropWhile_cons_of_neg ha]
      exact h

theorem noSplitB_pyRStrip : ∀ (s : List Char),
    noSplitB s = true → noSplitB (pyRStrip s) = true := by
  intro s
  induction s with
  | nil => intro _; rfl
  | cons c cs ih =>
    intro h
    have hdef : pyRStrip (c :: cs) = (if (pyRStrip cs).isEmpty then
        (if isWsChar c then [] else [c]) else c :: pyRStrip cs) := rfl
    rw [hdef]
    by_cases hr : (pyRStrip cs).isEmpty
    · rw [if_pos hr]
      by_cases hw : isWsChar c
      · rw [if_pos hw]; rfl
      · rw [if_neg hw]; rfl
    · rw [if_neg hr]
      refine noSplitB_cons (fun y hy => ?_) (ih (noSplitB_tail h))
      cases cs with
      | nil => simp [pyRStrip] at hr
      | cons d ds =>
        rw [pyRStrip_head d ds (by simpa using hr)] at hy
        have : d = y := by simpa using hy
        rw [← this]
        exact noSplitB_cons_pair h

theorem noSplitB_pyStrip (s : List Char) (h : noSplitB s = true) :
    noSplitB (pyStrip s) = true :=
  noSplitB_dropWhile _ (noSplitB_pyRStrip s h)

theorem allWs_noSplitB : ∀ (l : List Char), allWs l = true → noSplitB l = true := by
  intro l
  induction l with
  | nil => intro _; rfl
  | cons a l' ih =>
    intro h
    unfold allWs at h
    rw [List.all_cons] at h
    obtain ⟨ha, hl'⟩ := Bool.and_eq_true_iff.mp h
    refine noSplitB_cons (fun y _ => ?_) (ih hl')
    rw [ws_not_term ha, Bool.false_and]

theorem rev_cons_append (a : Char) (acc t : List Char) :
    (a :: acc).reverse ++ t = acc.reverse ++ (a :: t) := by
  simp

theorem noSplitB_mid : ∀ (u : List Char) {a b : Char} {v : List Char},
    noSplitB (u ++ a :: b :: v) = true → (isTermChar a && isWsChar b) = false := by
  intro u
  induction u with
  | nil => intro a b v h; exact noSplitB_cons_pair h
  | cons x u' ih => intro a b v h; exact ih (noSplitB_tail h)

theorem ssAux_noTrigger : ∀ (t acc : List Char),
    noSplitB (acc.reverse ++ t) = true → ssAux acc false t = [acc.reverse ++ t] := by
  intro t
  induction t with
  | nil => intro acc _; simp [ssAux]
  | cons c cs ih =>
    intro acc h
    cases acc with
    | nil =>
      show ssAux [c] false cs = [[] ++ c :: cs]
      rw [List.nil_append]
      have := ih [c] (by simpa using h)
      rw [this]
      simp
    | cons p acc₂ =>
      have h' : noSplitB (acc₂.reverse ++ p :: c :: cs) = true := by
        rw [show acc₂.reverse ++ p :: c :: cs =
          (p :: acc₂).reverse ++ (c :: cs) from by simp]
        exact h
      have hpair : (isTermChar p && isWsChar c) = false := noSplitB_mid acc₂.reverse h'
      show (if isTermChar p && isWsChar c then
          (p :: acc₂).reverse :: ssAux [] true cs
        else ssAux (c :: p :: acc₂) false cs) = [(p :: acc₂).reverse ++ c :: cs]
      rw [hpair, if_neg (by simp)]
      have := ih (c :: p :: acc₂) (by rw [rev_cons_append]; exact h)
      rw [this, rev_cons_append]

theorem ssAux_sep_nonws (r : List Char)
    (h : ∀ d, r.head? = some d → isWsChar d = false) :
    ssAux [] true r = ssAux [] false r := by
  cases r with
  | nil => rfl
  | cons d r' =>
    have hd := h d rfl
    show (if isWsChar d then ssAux [] true r' else ssAux [d] false r') =
      ssAux [] false (d :: r')
    rw [hd, if_neg (by simp)]
    rfl

theorem ssAux_scanPiece : ∀ (p acc rest : List Char),
    noSplitB (acc.reverse ++ p) = true → endsTerm (acc.reverse ++ p) = true →
    ssAux acc false (p ++ ' ' :: rest) = (acc.reverse ++ p) :: ssAux [] true rest := by
  intro p
  induction p with
  | nil =>
    intro acc rest hns he
    rw [List.append_nil] at he ⊢
    cases acc with
    | nil => cases he
    | cons q acc₂ =>
      have hq : isTermChar q = true := by
        unfold endsTerm at he
        rw [List.getLast?_reverse] at he
        simpa using he
      show (if isTermChar q && isWsChar ' ' then
          (q :: acc₂).reverse :: ssAux [] true rest
        else ssAux (' ' :: q :: acc₂) false rest) =
        (q :: acc₂).reverse :: ssAux [] true rest
      rw [hq]
      rw [if_pos (by decide)]
  | cons c p' ih =>
    intro acc rest hns he
    cases acc with
    | nil =>
      show ssAux [c] false (p' ++ ' ' :: rest) = ([] ++ c :: p') :: ssAux [] true rest
      rw [List.nil_append]
      have := ih [c] rest (by simpa using hns) (by simpa using he)
      rw [this]
      simp
    | cons q acc₂ =>
      have hns' : noSplitB (acc₂.reverse ++ q :: c :: p') = true := by
        rw [show acc₂.reverse ++ q :: c :: p' =
          (q :: acc₂).reverse ++ (c :: p') from by simp]
        exact hns
      have hpair : (isTermChar q && isWsChar c) = false := noSplitB_mid acc₂.reverse hns'
      show (if isTermChar q && isWsChar c then
          (q :: acc₂).reverse :: ssAux [] true (p' ++ ' ' :: rest)
        else ssAux (c :: q :: acc₂) false (p' ++ ' ' :: rest)) =
        ((q :: acc₂).reverse ++ c :: p') :: ssAux [] true rest
      rw [hpair, if_neg (by simp)]
      have := ih (c :: q :: acc₂) rest
        (by rw [rev_cons_append]; exact hns)
        (by rw [rev_cons_append]; exact he)
      rw [this, rev_cons_append]

theorem goodPieces_cons (x : List Char) (r : List (List Char)) :
    goodPieces (x :: r) =
      (noSplitB x && (r.isEmpty || endsTerm x) && goodPieces r) := rfl

theorem gj_cons (p : List Char) (r : List (List Char)) :
    gj (p :: r) = (!p.isEmpty && noSplitB p && decide (pyStrip p = p) &&
      (r.isEmpty || endsTerm p) && gj r) := rfl

theorem chainNe_cons (x : List Char) (r : List (List Char)) (prev : Option (List Char)) :
    chainNe prev (x :: r) = (decide (some x ≠ prev) && chainNe (some x) r) := rfl

theorem dedupAux_cons (prev : Option (List Char)) (s : List Char) (rest : List (List Char)) :
    dedupAux prev (s :: rest) =
      (if (pyStrip s).isEmpty then dedupAux prev rest
       else if prev == some (pyStrip s) then dedupAux prev rest
       else pyStrip s :: dedupAux (some (pyStrip s)) rest) := rfl

theorem ssAux_good : ∀ (t : List Char),
    (∀ acc, noSplitRevB acc = true → goodPieces (ssAux acc false t) = true) ∧
    goodPieces (ssAux [] true t) = true := by
  intro t
  induction t with
  | nil =>
    constructor
    · intro acc hacc
      show goodPieces [acc.reverse] = true
      rw [goodPieces_cons]
      simp [noSplitRevB_to_noSplitB acc hacc, goodPieces]
    · decide
  | cons c cs ih =>
    constructor
    · intro acc hacc
      cases acc with
      | nil =>
        show goodPieces (ssAux [c] false cs) = true
        exact ih.1 [c] rfl
      | cons p acc₂ =>
        show goodPieces (if isTermChar p && isWsChar c then
          (p :: acc₂).reverse :: ssAux [] true cs
          else ssAux (c :: p :: acc₂) false cs) = true
        cases hc : (isTermChar p && isWsChar c) with
        | true =>
          rw [if_pos rfl]
          rw [goodPieces_cons]
          have h1 : noSplitB (p :: acc₂).reverse = true :=
            noSplitRevB_to_noSplitB _ hacc
          have h2 : endsTerm (p :: acc₂).reverse = true := by
            unfold endsTerm
            rw [List.getLast?_reverse]
            show isTermChar p = true
            exact (Bool.and_eq_true_iff.mp hc).1
          rw [h1, h2, ih.2]
          simp
        | false =>
          rw [if_neg Bool.false_ne_true]
          refine ih.1 (c :: p :: acc₂) ?_
          show (!(isTermChar p && isWsChar c) && noSplitRevB (p :: acc₂)) = true
          rw [hc, hacc]
          rfl
    · show goodPieces (if isWsChar c then ssAux [] true cs else ssAux [c] false cs) = true
      cases hw : isWsChar c with
      | true => rw [if_pos rfl]; exact ih.2
      | false =>
        rw [if_neg Bool.false_ne_true]
        exact ih.1 [c] rfl

theorem goodPieces_splitSentences (s : List Char) :
    goodPieces (splitSentences s) = true :=
  (ssAux_good s).1 [] rfl

theorem intercalate_singleton (a : List Char) : List.intercalate [' '] [a] = a := by
  simp [List.intercalate, List.intersperse]

theorem intercalate_cons2 (a b : List Char) (t : List (List Char)) :
    List.intercalate [' '] (a :: b :: t) =
      a ++ ' ' :: List.intercalate [' '] (b :: t) := by
  simp [List.intercalate, List.intersperse]

theorem head?_append_of_ne_nil (u v : List Char) (h : u ≠ []) :
    (u ++ v).head? = u.head? := by
  cases u with
  | nil => exact absurd rfl h
  | cons a u' => rfl

theorem getLast?_cons_ne (a : Char) (l : List Char) (h : l ≠ []) :
    (a :: l).getLast? = l.getLast? := by
  cases l with
  | nil => exact absurd rfl h
  | cons b l' => rw [List.getLast?_cons_cons]

theorem getLast?_append_of_ne_nil : ∀ (u v : List Char), v ≠ [] →
    (u ++ v).getLast? = v.getLast? := by
  intro u
  induction u with
  | nil => intro v _; rfl
  | cons a u' ih =>
    intro v hv
    rw [List.cons_append]
    rw [getLast?_cons_ne a (u' ++ v) (by
      intro hc
      rcases List.append_eq_nil.mp hc with ⟨_, h2⟩
      exact hv h2)]
    exact ih v hv

theorem intercalate_head_sp (p : List Char) (t : List (List Char)) (hp : p ≠ []) :
    (List.intercalate [' '] (p :: t)).head? = p.head? := by
  cases t with
  | nil => rw [intercalate_singleton]
  | cons b t' =>
    rw [intercalate_cons2]
    exact head?_append_of_ne_nil p _ hp

theorem intercalate_ne_nil (p : List Char) (t : List (List Char)) (hp : p ≠ []) :
    List.intercalate [' '] (p :: t) ≠ [] := by
  intro h
  have h1 := intercalate_head_sp p t hp
  rw [h] at h1
  cases p with
  | nil => exact hp rfl
  | cons c p' => cases h1

theorem intercalate_getLast : ∀ (t : List (List Char)) (p : List Char),
    (∀ q ∈ (p :: t), q ≠ []) →
    ∃ q, q ∈ (p :: t) ∧ (List.intercalate [' '] (p :: t)).getLast? = q.getLast? := by
  intro t
  induction t with
  | nil =>
    intro p _
    exact ⟨p, List.mem_singleton_self p, by rw [intercalate_singleton]⟩
  | cons b t' ih =>
    intro p hne
    obtain ⟨q, hqmem, hq⟩ := ih b (fun r hr => hne r (List.mem_cons_of_mem p hr))
    refine ⟨q, List.mem_cons_of_mem p hqmem, ?_⟩
    rw [intercalate_cons2]
    rw [getLast?_append_of_ne_nil p _ (by intro h; cases h)]
    rw [getLast?_cons_ne ' ' _ (intercalate_ne_nil b t'
      (hne b (List.mem_cons_of_mem p (List.mem_cons_self b t'))))]
    exact hq

theorem gj_mem : ∀ (l : List (List Char)), gj l = true →
    ∀ q ∈ l, q ≠ [] ∧ pyStrip q = q ∧ noSplitB q = true := by
  intro l
  induction l with
  | nil => intro _ q hq; cases hq
  | cons p r ih =>
    intro h q hq
    rw [gj_cons] at h
    have h1 := (Bool.and_eq_true_iff.mp h).1
    have hr := (Bool.and_eq_true_iff.mp h).2
    have h2 := (Bool.and_eq_true_iff.mp h1).1
    have h3 := (Bool.and_eq_true_iff.mp h2).1
    have hstr := (Bool.and_eq_true_iff.mp h2).2
    have hne := (Bool.and_eq_true_iff.mp h3).1
    have hnsp := (Bool.and_eq_true_iff.mp h3).2
    rcases List.mem_cons.mp hq with hq | hq
    · subst hq
      refine ⟨?_, of_decide_eq_true hstr, hnsp⟩
      intro hnil
      rw [hnil] at hne
      cases hne
    · exact ih hr q hq

theorem mem_of_getLast?_eq : ∀ (l : List Char) (a : Char),
    l.getLast? = some a → a ∈ l := by
  intro l
  induction l with
  | nil => intro a h; cases h
  | cons x l' ih =>
    intro a h
    cases l' with
    | nil =>
      have : x = a := by simpa using h
      rw [this]
      exact List.mem_singleton_self a
    | cons y l'' =>
      rw [List.getLast?_cons_cons] at h
      exact List.mem_cons_of_mem x (ih a h)

theorem endsTerm_pyStrip (p : List Char) (h : endsTerm p = true) :
    endsTerm (pyStrip p) = true ∧ pyStrip p ≠ [] := by
  unfold endsTerm at h
  cases hz : p.getLast? with
  | none => rw [hz] at h; cases h
  | some z =>
    rw [hz] at h
    have hzws : isWsChar z = false := term_not_ws h
    have hrs : pyRStrip p = p := by
      refine pyRStrip_eq_self_of_last p (fun c hc => ?_)
      rw [hz] at hc
      have : z = c := by simpa using hc
      rw [← this]
      exact hzws
    have hnn : pyStrip p ≠ [] := by
      intro hnil
      have hws : allWs p = true := (pyStrip_eq_nil_iff p).mp hnil
      unfold allWs at hws
      rw [List.all_eq_true] at hws
      have := hws z (mem_of_getLast?_eq p z hz)
      rw [hzws] at this
      cases this
    constructor
    · unfold endsTerm pyStrip pyLStrip
      rw [hrs]
      unfold pyStrip pyLStrip at hnn
      rw [hrs] at hnn
      rw [getLast?_dropWhile p hnn, hz]
      exact h
    · exact hnn

theorem pyStrip_intercalate : ∀ (l : List (List Char)), gj l = true → l ≠ [] →
    pyStrip (List.intercalate [' '] l) = List.intercalate [' '] l := by
  intro l hgj hne
  cases l with
  | nil => exact absurd rfl hne
  | cons p t =>
    have hmem := gj_mem (p :: t) hgj
    have hp := hmem p (List.mem_cons_self p t)
    refine pyStrip_eq_self_of _ ?_ ?_
    · intro y hy
      rw [intercalate_head_sp p t hp.1] at hy
      have := pyStrip_head_not_ws p
      rw [hp.2.1] at this
      exact this y hy
    · intro c hc
      obtain ⟨q, hqmem, hq⟩ := intercalate_getLast t p (fun r hr => (hmem r hr).1)
      rw [hq] at hc
      have := pyStrip_last_not_ws q
      rw [(hmem q hqmem).2.1] at this
      exact this c hc

theorem splitJoin : ∀ (l : List (List Char)), gj l = true → l ≠ [] →
    splitSentences (List.intercalate [' '] l) = l := by
  intro l
  induction l with
  | nil => intro _ hne; exact absurd rfl hne
  | cons p t ih =>
    intro hgj _
    rw [gj_cons] at hgj
    have h1 := (Bool.and_eq_true_iff.mp hgj).1
    have hgjt := (Bool.and_eq_true_iff.mp hgj).2
    have h2 := (Bool.and_eq_true_iff.mp h1).1
    have hor := (Bool.and_eq_true_iff.mp h1).2
    have h3 := (Bool.and_eq_true_iff.mp h2).1
    have hstr := of_decide_eq_true (Bool.and_eq_true_iff.mp h2).2
    have hne := (Bool.and_eq_true_iff.mp h3).1
    have hnsp := (Bool.and_eq_true_iff.mp h3).2
    cases t with
    | nil =>
      rw [intercalate_singleton]
      unfold splitSentences
      have := ssAux_noTrigger p [] (by simpa using hnsp)
      rw [this]
      simp
    | cons b t' =>
      have het : endsTerm p = true := by
        rw [show ((b :: t' : List (List Char)).isEmpty) = false from rfl] at hor
        simpa using hor
      rw [intercalate_cons2]
      unfold splitSentences
      have hscan := ssAux_scanPiece p [] (List.intercalate [' '] (b :: t'))
        (by simpa using hnsp) (by simpa using het)
      rw [hscan]
      have hbne : b ≠ [] := (gj_mem _ hgjt b (List.mem_cons_self b t')).1
      have hbstr : pyStrip b = b := (gj_mem _ hgjt b (List.mem_cons_self b t')).2.1
      have hsep : ssAux [] true (List.intercalate [' '] (b :: t')) =
          ssAux [] false (List.intercalate [' '] (b :: t')) := by
        refine ssAux_sep_nonws _ (fun d hd => ?_)
        rw [intercalate_head_sp b t' hbne] at hd
        have := pyStrip_head_not_ws b
        rw [hbstr] at this
        exact this d hd
      rw [hsep]
      have hrec := ih hgjt (by intro h; cases h)
      unfold splitSentences at hrec
      rw [hrec]
      simp

theorem dedup_gj : ∀ (l : List (List Char)) (prev : Option (List Char)),
    goodPieces l = true → gj (dedupAux prev l) = true := by
  intro l
  induction l with
  | nil => intro prev _; rfl
  | cons s rest ih =>
    intro prev h
    rw [goodPieces_cons] at h
    have h1 := (Bool.and_eq_true_iff.mp h).1
    have hrest := (Bool.and_eq_true_iff.mp h).2
    have hns := (Bool.and_eq_true_iff.mp h1).1
    have hor := (Bool.and_eq_true_iff.mp h1).2
    rw [dedupAux_cons]
    cases hemp : (pyStrip s).isEmpty with
    | true =>
      rw [if_pos rfl]
      exact ih prev hrest
    | false =>
      rw [if_neg Bool.false_ne_true]
      cases hpr : (prev == some (pyStrip s)) with
      | true =>
        rw [if_pos rfl]
        exact ih prev hrest
      | false =>
        rw [if_neg Bool.false_ne_true]
        rw [gj_cons]
        have hgr : gj (dedupAux (some (pyStrip s)) rest) = true := ih _ hrest
        have hnsps : noSplitB (pyStrip s) = true := noSplitB_pyStrip s hns
        have hidem : decide (pyStrip (pyStrip s) = pyStrip s) = true :=
          decide_eq_true (pyStrip_idem s)
        have horr : ((dedupAux (some (pyStrip s)) rest).isEmpty ||
            endsTerm (pyStrip s)) = true := by
          cases hdr : (dedupAux (some (pyStrip s)) rest).isEmpty with
          | true => rfl
          | false =>
            have hrne : rest ≠ [] := by
              intro hnil
              rw [hnil] at hdr
              cases hdr
            have hresf : (rest.isEmpty) = false := by
              cases rest with
              | nil => exact absurd rfl hrne
              | cons _ _ => rfl
            rw [hresf] at hor
            have het : endsTerm s = true := by simpa using hor
            rw [(endsTerm_pyStrip s het).1]
            rfl
        rw [hemp, hnsps, hidem, horr, hgr]
        rfl

theorem chainNe_dedup : ∀ (l : List (List Char)) (prev : Option (List Char)),
    chainNe prev (dedupAux prev l) = true := by
  intro l
  induction l with
  | nil => intro prev; rfl
  | cons s rest ih =>
    intro prev
    rw [dedupAux_cons]
    cases hemp : (pyStrip s).isEmpty with
    | true => rw [if_pos rfl]; exact ih prev
    | false =>
      rw [if_neg Bool.false_ne_true]
      cases hpr : (prev == some (pyStrip s)) with
      | true => rw [if_pos rfl]; exact ih prev
      | false =>
        rw [if_neg Bool.false_ne_true]
        rw [chainNe_cons]
        have hne : some (pyStrip s) ≠ prev := by
          intro heq
          rw [← heq] at hpr
          simp at hpr
        rw [decide_eq_true hne, ih (some (pyStrip s))]
        rfl

theorem chainNe_chain' : ∀ (l : List (List Char)) (prev : Option (List Char)),
    chainNe prev l = true → List.Chain' (fun a b => a ≠ b) l := by
  intro l
  induction l with
  | nil => intro _ _; exact List.chain'_nil
  | cons x r ih =>
    intro prev h
    rw [chainNe_cons] at h
    have h2 := (Bool.and_eq_true_iff.mp h).2
    cases r with
    | nil => exact List.chain'_singleton x
    | cons y r' =>
      rw [List.chain'_cons]
      constructor
      · have h3 := (Bool.and_eq_true_iff.mp (by rw [chainNe_cons] at h2; exact h2)).1
        have : some y ≠ some x := of_decide_eq_true h3
        intro hxy
        exact this (by rw [hxy])
      · exact ih (some x) h2

theorem dedup_fix : ∀ (l : List (List Char)) (prev : Option (List Char)),
    gj l = true → chainNe prev l = true → dedupAux prev l = l := by
  intro l
  induction l with
  | nil => intro _ _ _; rfl
  | cons x r ih =>
    intro prev hgj hch
    have hx := gj_mem _ hgj x (List.mem_cons_self x r)
    rw [gj_cons] at hgj
    have hgr := (Bool.and_eq_true_iff.mp hgj).2
    rw [chainNe_cons] at hch
    have hne : some x ≠ prev := of_decide_eq_true (Bool.and_eq_true_iff.mp hch).1
    have hch2 := (Bool.and_eq_true_iff.mp hch).2
    rw [dedupAux_cons, hx.2.1]
    rw [if_neg (by
      intro hc
      rw [List.isEmpty_iff] at hc
      exact hx.1 hc)]
    rw [if_neg (by
      intro hc
      rw [beq_iff_eq] at hc
      exact hne hc.symm)]
    rw [ih (some x) hgr hch2]

theorem dedup_none_nil : ∀ (l : List (List Char)), dedupAux none l = [] →
    ∀ p ∈ l, pyStrip p = [] := by
  intro l
  induction l with
  | nil => intro _ p hp; cases hp
  | cons s rest ih =>
    intro h p hp
    rw [dedupAux_cons] at h
    cases hemp : (pyStrip s).isEmpty with
    | true =>
      rw [if_pos (by rw [hemp])] at h
      rcases List.mem_cons.mp hp with hp | hp
      · rw [hp]; exact List.isEmpty_iff.mp hemp
      · exact ih h p hp
    | false =>
      rw [if_neg (by rw [hemp]; exact Bool.false_ne_true)] at h
      rw [if_neg (by simp)] at h
      cases h

theorem allWs_mem (l : List Char) (h : allWs l = true) :
    ∀ x ∈ l, isWsChar x = true := by
  unfold allWs at h
  rw [List.all_eq_true] at h
  exact h

theorem ssAux_allWs : ∀ (t acc : List Char),
    (∀ p ∈ ssAux acc false t, allWs p = true) → allWs (acc.reverse ++ t) = true := by
  intro t
  induction t with
  | nil =>
    intro acc h
    rw [List.append_nil]
    exact h acc.reverse (by show acc.reverse ∈ [acc.reverse]; exact List.mem_singleton_self _)
  | cons c cs ih =>
    intro acc h
    cases acc with
    | nil =>
      have := ih [c] h
      simpa using this
    | cons p acc₂ =>
      cases hc : (isTermChar p && isWsChar c) with
      | true =>
        have hmem : (p :: acc₂).reverse ∈ ssAux (p :: acc₂) false (c :: cs) := by
          show (p :: acc₂).reverse ∈ (if isTermChar p && isWsChar c then
            (p :: acc₂).reverse :: ssAux [] true cs
            else ssAux (c :: p :: acc₂) false cs)
          rw [hc, if_pos rfl]
          exact List.mem_cons_self _ _
        have hws : allWs (p :: acc₂).reverse = true := h _ hmem
        have hp : isWsChar p = true :=
          allWs_mem _ hws p (by rw [List.mem_reverse]; exact List.mem_cons_self p acc₂)
        have : isTermChar p = true := (Bool.and_eq_true_iff.mp hc).1
        rw [ws_not_term hp] at this
        cases this
      | false =>
        have hstep : ssAux (p :: acc₂) false (c :: cs) =
            ssAux (c :: p :: acc₂) false cs := by
          show (if isTermChar p && isWsChar c then
            (p :: acc₂).reverse :: ssAux [] true cs
            else ssAux (c :: p :: acc₂) false cs) = ssAux (c :: p :: acc₂) false cs
          rw [hc, if_neg Bool.false_ne_true]
        rw [hstep] at h
        have := ih (c :: p :: acc₂) h
        rw [rev_cons_append] at this
        exact this

theorem dedup_nil_split_single (out2 : List Char)
    (h : dedupAux none (splitSentences (pyStrip out2)) = []) :
    splitSentences out2 = [out2] := by
  have hpieces : ∀ p ∈ splitSentences (pyStrip out2), pyStrip p = [] :=
    dedup_none_nil _ h
  have hws : allWs (pyStrip out2) = true := by
    have := ssAux_allWs (pyStrip out2) []
      (fun p hp => (pyStrip_eq_nil_iff p).mp (hpieces p hp))
    simpa using this
  have hnil : pyStrip out2 = [] := by
    have h2 : pyStrip (pyStrip out2) = [] := (pyStrip_eq_nil_iff _).mpr hws
    rw [pyStrip_idem] at h2
    exact h2
  have hwsout : allWs out2 = true := (pyStrip_eq_nil_iff out2).mp hnil
  have hns : noSplitB out2 = true := allWs_noSplitB out2 hwsout
  unfold splitSentences
  have := ssAux_noTrigger out2 [] (by simpa using hns)
  rw [this]
  simp

theorem appendOfferings_nil (out : List Char) : appendOfferings [] out = out := rfl

theorem rp_unfold_empty_mapping (faqs : List Faq) (h : buildMapping faqs = [])
    (x : List Char) (hx : (x.isEmpty || faqs.isEmpty) = false) :
    replace_placeholders_in_reply x faqs =
      (if (dedupAux none (splitSentences (pyStrip x))).isEmpty then x
       else List.intercalate [' '] (dedupAux none (splitSentences (pyStrip x)))) := by
  unfold replace_placeholders_in_reply
  rw [hx]
  rw [if_neg Bool.false_ne_true]
  simp only [h, List.foldl_nil, appendOfferings_nil]

/-- Claim C2 counterexample: with FAQ answers "M" (managed) and "X service 1 Y"
(VPS), the input "vps vps X service 1 Y" already contains the VPS canonical
answer verbatim, yet `replace_placeholders_in_reply` substitutes it in again
(the guard tests the evolving text, not the original input), so the answer
occurs twice in the output. -/
theorem C2_counterexample :
    containsSub (str "X service 1 Y") (str "vps vps X service 1 Y") = true ∧
    countOcc (str "X service 1 Y") (str "vps vps X service 1 Y") = 1 ∧
    1 < countOcc (str "X service 1 Y")
        (replace_placeholders_in_reply (str "vps vps X service 1 Y") c2Faqs) := by
  decide

/-- Claim C2 (amended): for every nonempty reply and nonempty FAQ list, the
output of `replace_placeholders_in_reply`, split into sentences at terminal
punctuation, contains no two adjacent identical sentences.  (The original
claim's second conjunct — that an answer already present verbatim in the
input is never substituted in again — is false, and with an empty reply or
FAQ list the input is returned unchanged.) -/
theorem C2_no_adjacent_duplicates (reply : List Char) (faqs : List Faq)
    (h1 : reply.isEmpty = false) (h2 : faqs.isEmpty = false) :
    List.Chain' (fun a b => a ≠ b)
      (splitSentences (replace_placeholders_in_reply reply faqs)) := by
  have key : ∀ out2 : List Char,
      List.Chain' (fun a b => a ≠ b) (splitSentences
        (if (dedupAux none (splitSentences (pyStrip out2))).isEmpty then out2
         else List.intercalate [' ']
           (dedupAux none (splitSentences (pyStrip out2))))) := by
    intro out2
    cases hd : (dedupAux none (splitSentences (pyStrip out2))).isEmpty with
    | true =>
      rw [if_pos rfl]
      rw [dedup_nil_split_single out2 (List.isEmpty_iff.mp (by rw [hd]))]
      exact List.chain'_singleton out2
    | false =>
      rw [if_neg Bool.false_ne_true]
      have hgj : gj (dedupAux none (splitSentences (pyStrip out2))) = true :=
        dedup_gj _ none (goodPieces_splitSentences (pyStrip out2))
      have hne : dedupAux none (splitSentences (pyStrip out2)) ≠ [] := by
        intro hnil
        rw [hnil] at hd
        cases hd
      rw [splitJoin _ hgj hne]
      exact chainNe_chain' _ none (chainNe_dedup _ none)
  have heq : replace_placeholders_in_reply reply faqs =
      (if (dedupAux none (splitSentences (pyStrip (appendOfferings (buildMapping faqs)
          ((buildMapping faqs).foldl (fun o kv => safe_insert_replacement o kv.1 kv.2)
            reply))))).isEmpty
       then appendOfferings (buildMapping faqs)
          ((buildMapping faqs).foldl (fun o kv => safe_insert_replacement o kv.1 kv.2)
            reply)
       else List.intercalate [' ']
         (dedupAux none (splitSentences (pyStrip (appendOfferings (buildMapping faqs)
          ((buildMapping faqs).foldl (fun o kv => safe_insert_replacement o kv.1 kv.2)
            reply)))))) := by
    unfold replace_placeholders_in_reply
    rw [h1, h2, Bool.or_self, if_neg Bool.false_ne_true]
  rw [heq]
  exact key _

/-- Witness for the amended claim C2 at a concrete input. -/
theorem C2_witness :
    (str "Hello there. Hello there. Bye.").isEmpty = false ∧
    sampleFaqs.isEmpty = false ∧
    List.Chain' (fun a b => a ≠ b)
      (splitSentences (replace_placeholders_in_reply
        (str "Hello there. Hello there. Bye.") sampleFaqs)) :=
  ⟨by decide, by decide,
    C2_no_adjacent_duplicates (str "Hello there. Hello there. Bye.") sampleFaqs
      (by decide) (by decide)⟩

/-- Claim C1 counterexample: with a single "What cloud offerings" FAQ whose
answer contains a newline after a sentence, `replace_placeholders_in_reply`
is not idempotent on the reply "these include": the first application appends
the offerings list and the sentence join rewrites its inner newline to a
space, so the second application's verbatim-presence check fails and the list
is appended again. -/
theorem C1_counterexample :
    replace_placeholders_in_reply
        (replace_placeholders_in_reply (str "these include") c1Faqs) c1Faqs ≠
      replace_placeholders_in_reply (str "these include") c1Faqs := by
  decide

/-- Claim C1 (amended): `replace_placeholders_in_reply` is idempotent for
every reply whenever the FAQ list yields an empty placeholder mapping (no FAQ
question matches a placeholder category).  With a nonempty mapping idempotence
can fail via the "these include" re-append. -/
theorem C1_idempotent_of_empty_mapping (x : List Char) (faqs : List Faq)
    (h : buildMapping faqs = []) :
    replace_placeholders_in_reply (replace_placeholders_in_reply x faqs) faqs =
      replace_placeholders_in_reply x faqs := by
  cases he : (x.isEmpty || faqs.isEmpty) with
  | true =>
    have hx : replace_placeholders_in_reply x faqs = x := by
      unfold replace_placeholders_in_reply
      rw [he, if_pos rfl]
    rw [hx]
    exact hx
  | false =>
    have hfaqs : faqs.isEmpty = false := (Bool.or_eq_false_iff.mp he).2
    have h1 := rp_unfold_empty_mapping faqs h x he
    cases hd : (dedupAux none (splitSentences (pyStrip x))).isEmpty with
    | true =>
      have hxx : replace_placeholders_in_reply x faqs = x := by
        rw [h1, if_pos (by rw [hd])]
      rw [hxx]
      exact hxx
    | false =>
      have hgj : gj (dedupAux none (splitSentences (pyStrip x))) = true :=
        dedup_gj _ none (goodPieces_splitSentences (pyStrip x))
      have hdne : dedupAux none (splitSentences (pyStrip x)) ≠ [] := by
        intro hnil
        rw [hnil] at hd
        cases hd
      have hxy : replace_placeholders_in_reply x faqs =
          List.intercalate [' '] (dedupAux none (splitSentences (pyStrip x))) := by
        rw [h1, if_neg (by
          intro hc
          rw [hd] at hc
          cases hc)]
      have hyne : (List.intercalate [' ']
          (dedupAux none (splitSentences (pyStrip x)))).isEmpty = false := by
        cases hded : dedupAux none (splitSentences (pyStrip x)) with
        | nil => exact absurd hded hdne
        | cons p t =>
          have hpne : p ≠ [] := by
            refine (gj_mem _ ?_ p (List.mem_cons_self p t)).1
            rw [← hded]
            exact hgj
          have := intercalate_ne_nil p t hpne
          cases hb : (List.intercalate [' '] (p :: t)).isEmpty with
          | true => exact absurd (List.isEmpty_iff.mp (by rw [hb])) this
          | false => rfl
      have hcond2 : ((List.intercalate [' ']
          (dedupAux none (splitSentences (pyStrip x)))).isEmpty ||
          faqs.isEmpty) = false := by
        rw [hyne, hfaqs]
        rfl
      have h2 := rp_unfold_empty_mapping faqs h _ hcond2
      have hstr : pyStrip (List.intercalate [' ']
          (dedupAux none (splitSentences (pyStrip x)))) =
          List.intercalate [' '] (dedupAux none (splitSentences (pyStrip x))) :=
        pyStrip_intercalate _ hgj hdne
      have hsplit : splitSentences (List.intercalate [' ']
          (dedupAux none (splitSentences (pyStrip x)))) =
          dedupAux none (splitSentences (pyStrip x)) :=
        splitJoin _ hgj hdne
      have hded2 : dedupAux none (splitSentences (pyStrip (List.intercalate [' ']
          (dedupAux none (splitSentences (pyStrip x)))))) =
          dedupAux none (splitSentences (pyStrip x)) := by
        rw [hstr, hsplit]
        exact dedup_fix _ none hgj (chainNe_dedup _ none)
      rw [hxy]
      rw [h2, hded2]
      rw [if_neg (by
        intro hc
        rw [hd] at hc
        cases hc)]

/-- Witness for the amended claim C1 at a concrete input. -/
theorem C1_witness :
    buildMapping plainFaqs = [] ∧
    replace_placeholders_in_reply
        (replace_placeholders_in_reply (str "Hello there.  Bye.") plainFaqs)
        plainFaqs =
      replace_placeholders_in_reply (str "Hello there.  Bye.") plainFaqs :=
  ⟨by decide, C1_idempotent_of_empty_mapping _ _ (by decide)⟩
